import Mathlib

/-!
# Verification of the pyll expression-graph core

This file gives a shallow embedding, in Lean 4, of the core of the `pyll`
library (`pyll/base.py` and `pyll/annotate.py`): the `Apply`/`Literal` node
model, the graph algorithms (`dfs`, `toposort`, `clone`, `clone_merge`), the
work-queue evaluator `rec_eval` with its lazy `switch` handling, memo
garbage collection and runaway-graph ceiling, the label-matching predicate,
the stochastic rewriter `replace_implicit_stochastic_nodes`, and the
vectorization helper `Nmap`.

Modelling conventions:
* Python object identity is modelled by an arena: nodes live in a list and
  are addressed by their index; edges are indices.  Mutation of a node in
  place (`replace_input`) is modelled by replacing the arena entry.
* Python runtime values handled by the implementations the claims need are
  modelled by the inductive type `PVal` (integers, strings, lists, and an
  opaque random-generator state).  A raising implementation is one that
  returns `none`.
* `numpy.random.RandomState` is modelled as an opaque deterministic state
  machine over `Nat` (a linear congruential generator); the library never
  inspects the generator's internals, only threads it.
* Fallible code returns `Option`/`Except`; recursions whose termination
  rests on runtime properties (Python's `dfs`, the `rec_eval` work loop)
  take explicit fuel, and theorems quantify over the fuel.
-/

set_option maxHeartbeats 1600000

/-- Python runtime values used by the implementations in scope.  Python
lists are encoded by `vnil`/`vcons`. -/
inductive PVal : Type where
  | int : Int → PVal
  | str : String → PVal
  | rngv : Nat → PVal
  | vnil : PVal
  | vcons : PVal → PVal → PVal
deriving DecidableEq, Repr

/-- Encode a Lean list of values as a Python list value. -/
def PVal.ofList : List PVal → PVal
  | [] => .vnil
  | x :: xs => .vcons x (PVal.ofList xs)

/-- Encode a list of integers as a Python list value. -/
def PVal.ofIntList (xs : List Int) : PVal :=
  PVal.ofList (xs.map PVal.int)

/-- Is this value a (proper) Python list? -/
def PVal.isList : PVal → Bool
  | .vnil => true
  | .vcons _ t => t.isList
  | _ => false

/-- `len(v)` for Python list values; `none` models the `TypeError` raised
by `len` on a non-sequence. -/
def PVal.lengthV : PVal → Option Nat
  | .vnil => some 0
  | .vcons _ t => (PVal.lengthV t).map (· + 1)
  | _ => none

/-- `v[i]` for Python list values; `none` models `IndexError`/`TypeError`. -/
def PVal.indexV : PVal → Nat → Option PVal
  | .vcons h _, 0 => some h
  | .vcons _ t, n + 1 => PVal.indexV t n
  | _, _ => none

/-- Python `a + b` on two list values (concatenation); `none` on
non-lists. -/
def PVal.concatV : PVal → PVal → Option PVal
  | .vnil, b => if b.isList then some b else none
  | .vcons h t, b => (PVal.concatV t b).map (PVal.vcons h)
  | _, _ => none

/-- The linear congruential step of the modelled random generator:
from a state, the next state. -/
def rngStep (st : Nat) : Nat :=
  (1103515245 * st + 12345) % 2147483648

/-- The value drawn by the modelled random generator in a given state. -/
def rngOut (st : Nat) : Int :=
  Int.ofNat (st % 1000003)

/-- `rng_from_seed` (annotate.py): `np.random.RandomState(seed)`, modelled
as the generator state equal to the seed. -/
def rng_from_seed (seed : Nat) : PVal :=
  PVal.rngv seed

/-!
## Registry implementations (`scope._impls`)

`rec_eval` looks implementations up by name in the process-wide registry.
The evaluator below is parameterised by such a table; `implsBase` is the
table for the operations registered in `base.py`/`annotate.py` that the
theorems exercise.  An implementation returning `none` models a raising
implementation.
-/

/-- An implementation table: operation name, positional argument values,
keyword argument values. -/
def ImplTable : Type :=
  String → List PVal → List (String × PVal) → Option PVal

/-- Implementations of the registered operations exercised by the
theorems, translated from `base.py`/`annotate.py`:
`identity`, `pos_args`, `add` (Python `+`: integer addition or list
concatenation), `getitem`, `repeat`, `Raise` (always raises),
`draw_rng` (draws from the threaded generator state and returns the
pair `(draw, rng)`), and the implicit-stochastic draws, whose drawn
value comes from the generator state. -/
def implsBase : ImplTable := fun name args _kwargs =>
  match name, args with
  | "identity", [v] => some v
  | "pos_args", vs => some (PVal.ofList vs)
  | "add", [PVal.int a, PVal.int b] => some (PVal.int (a + b))
  | "add", [a, b] => a.concatV b
  | "getitem", [v, PVal.int (Int.ofNat i)] => v.indexV i
  | "repeat", [PVal.int (Int.ofNat n), v] => some (PVal.ofList (List.replicate n v))
  | "Raise", _ => none
  | "draw_rng", PVal.rngv st :: PVal.str _ :: _ =>
      some (PVal.ofList [PVal.int (rngOut st), PVal.rngv (rngStep st)])
  | "uniform", _ => none
  | "randint", _ => none
  | "choice", _ => none
  | "one_of", _ => none
  | "quantized_uniform", _ => none
  | "log_uniform", _ => none
  | _, _ => none

/-!
## `label_matches` (base.py lines 624-632)

Node labels are modelled as association lists from strings to natural
numbers, and a label query maps each key either to a single value or to a
collection (`isinstance(L[k], list)`).  Note that in the source every path
of the `for k in L` loop body ends in `return`, so only the first queried
key (in dictionary iteration order) is ever examined, and an empty query
falls off the loop returning `None`.
-/

/-- A value in a label query: a single value, or a collection tested by
membership. -/
inductive LQVal : Type where
  | single : Nat → LQVal
  | coll : List Nat → LQVal
deriving DecidableEq, Repr

/-- Dictionary lookup in an association list (`k in l` / `l[k]`). -/
def lfindNat (k : String) (l : List (String × Nat)) : Option Nat :=
  (l.find? (fun p => p.1 == k)).map (·.2)

/-- The per-key condition: the node's value equals the query's value, or
is a member of the query's value when that value is a collection. -/
def lqTest (lv : Nat) : LQVal → Bool
  | .single n => lv == n
  | .coll xs => xs.contains lv

/-- `label_matches(l, L)` translated from base.py lines 624-632.  The
Python loop body returns on every path, so the result is decided by the
first key of `L` alone; with an empty `L` the function falls off the end
and returns `None`. -/
def label_matches (l : List (String × Nat)) (L : List (String × LQVal)) :
    Option Bool :=
  match L with
  | [] => none
  | (k, qv) :: _ =>
    match lfindNat k l with
    | some lv => some (lqTest lv qv)
    | none => some false

/-- The label-matching predicate as the specification words it: a node
matches a query exactly when every queried key that is present on the node
satisfies its condition (equality, or membership for collection values).
Stated from the spec for comparison with `label_matches`. -/
def labelMatchesSpec (l : List (String × Nat)) (L : List (String × LQVal)) :
    Bool :=
  L.all (fun p =>
    match lfindNat p.1 l with
    | some lv => lqTest lv p.2
    | none => true)

/-!
## `Nmap` (annotate.py lines 65-86)

`Nmap(n_times, cmd, *args, **kwargs)` is the lifted, per-sample-application
node used by the vectorizer's `build_vals`.  The source checks every
positional argument's length against `n_times`, then iterates
`for kw, arg in kwargs` (which unpacks the dictionary's *keys* and
therefore raises for any non-empty `kwargs`), and in the per-sample loop
computes the slices `args_nn = [arg[nn] for arg in args]` but then invokes
`f(*args, **kwargs)` on the whole argument vectors (line 81), ignoring
`args_nn`/`kwargs_nn`.
-/

/-- `Nmap` translated from annotate.py lines 65-86 (the per-sample slices
are computed but, as in the source, not passed to `f`). -/
def Nmap (impls : ImplTable) (n_times : Nat) (cmd : String)
    (args : List PVal) (kwargs : List (String × PVal)) : Option PVal :=
  if args.any (fun a => a.lengthV ≠ some n_times) then none
  else if kwargs ≠ [] then none
  else
    ((List.range n_times).mapM (fun nn =>
      let _args_nn := args.map (fun a => a.indexV nn)
      impls cmd args kwargs)).map PVal.ofList

/-- The behaviour the specification ascribes to the lifted node: apply the
original per-sample operation independently at every index, using the
`nn`-th elements of the argument vectors.  Stated from the spec for
comparison with `Nmap`. -/
def NmapSpec (impls : ImplTable) (n_times : Nat) (cmd : String)
    (args : List PVal) (kwargs : List (String × PVal)) : Option PVal :=
  if args.any (fun a => a.lengthV ≠ some n_times) then none
  else if kwargs ≠ [] then none
  else
    ((List.range n_times).mapM (fun nn => do
      let args_nn ← args.mapM (fun (a : PVal) => a.indexV nn)
      impls cmd args_nn [])).map PVal.ofList

/-!
## The node model (`Apply` / `Literal`, base.py)

Nodes live in an arena (a list); a node reference is its arena index, which
models Python object identity.  An `Apply` node carries an operation name,
positional inputs and named inputs; a `Literal` is the node variant with
`name = "literal"`, no inputs, and a wrapped value `obj`.
-/

/-- An expression-graph node (`Apply`, base.py line 235; `Literal`, line
645).  `isLit` marks the `Literal` variant, whose wrapped value is `obj`.
The model-fitting fields (`learn_args`, `fit_class`, ...) are out of the
claims' scope and omitted. -/
structure PNode : Type where
  name : String
  pos_args : List Nat
  named_args : List (String × Nat)
  pureN : Bool := false
  isLit : Bool := false
  obj : PVal := PVal.vnil
deriving DecidableEq, Repr

instance : Inhabited PNode :=
  ⟨{ name := "literal", pos_args := [], named_args := [] }⟩

/-- The arena of all allocated nodes; a node reference is an index. -/
abbrev Arena : Type :=
  List PNode

/-- Arena length. -/
abbrev asize (a : Arena) : Nat :=
  List.length a

/-- Dereference a node (out-of-range indices give the default node; the
well-formedness predicates below rule them out where it matters). -/
def getNode (a : Arena) (i : Nat) : PNode :=
  List.getD a i default

/-- `Apply.inputs` (base.py line 318): positional inputs followed by the
named-argument inputs. -/
def inputsOf (n : PNode) : List Nat :=
  n.pos_args ++ n.named_args.map (·.2)

/-- A literal node wrapping a value (`Literal.__init__`). -/
def mkLiteral (v : PVal) : PNode :=
  { name := "literal", pos_args := [], named_args := [], pureN := true,
    isLit := true, obj := v }

/-- Every edge of the arena points inside the arena. -/
def Closed (a : Arena) : Prop :=
  ∀ n ∈ a, ∀ i ∈ inputsOf n, i < asize a

/-- A constructively built arena: every node's inputs were allocated
before it (Python graphs built by the constructors are of this shape;
cycles can only be introduced later by in-place `replace_input`). -/
def WfArena (a : Arena) : Prop :=
  ∀ j, (hj : j < asize a) → ∀ i ∈ inputsOf (getNode a j), i < j

instance (a : Arena) : Decidable (Closed a) := by
  unfold Closed; infer_instance

instance (a : Arena) : Decidable (WfArena a) := by
  unfold WfArena; infer_instance

/-!
## `dfs` (base.py lines 789-803)

Recursive post-order traversal with a visited set (`seqset`): mark the
node, recurse into its inputs in order, then append the node to `seq`.
The Lean version takes fuel; `dfsFuel` below is always sufficient
(`dfs_isSome`).
-/

/-- The `for ii in aa.inputs(): dfs(ii, seq, seqset)` loop, parameterised
by the recursive call on one node. -/
def dfsList (f : Nat → List Nat → List Nat → Option (List Nat × List Nat)) :
    List Nat → List Nat → List Nat → Option (List Nat × List Nat)
  | [], seq, seqset => some (seq, seqset)
  | ii :: rest, seq, seqset =>
    match f ii seq seqset with
    | none => none
    | some (seq1, seqset1) => dfsList f rest seq1 seqset1

/-- `dfs(aa, seq, seqset)` with fuel: `none` models fuel exhaustion and
never occurs with `dfsFuel` fuel. -/
def dfsAux (a : Arena) (fuel : Nat) (aa : Nat) (seq seqset : List Nat) :
    Option (List Nat × List Nat) :=
  match fuel with
  | 0 => none
  | fuel' + 1 =>
    if aa ∈ seqset then some (seq, seqset)
    else
      match dfsList (dfsAux a fuel') (inputsOf (getNode a aa)) seq
          (aa :: seqset) with
      | none => none
      | some (seq1, seqset1) => some (seq1 ++ [aa], seqset1)

/-- All node references mentioned anywhere in the arena, plus a root:
an upper bound for the visited set of any traversal from `root`. -/
def idUniverse (a : Arena) (root : Nat) : List Nat :=
  (root :: a.flatMap inputsOf).dedup

/-- Sufficient fuel for `dfs` from `root`. -/
def dfsFuel (a : Arena) (root : Nat) : Nat :=
  (idUniverse a root).length + 1

/-- `dfs(root)` (fresh `seq`/`seqset`). -/
def dfs (a : Arena) (root : Nat) : List Nat :=
  ((dfsAux a (dfsFuel a root) root [] []).getD ([], [])).1

/-- Precondition relating `seq` and `seqset` inside `dfs`: every emitted
node is marked, emitted nodes are distinct, and every emitted node's
inputs are marked. -/
def DfsPre (a : Arena) (seq seqset : List Nat) : Prop :=
  seq ⊆ seqset ∧ seq.Nodup ∧
    ∀ n ∈ seq, ∀ i ∈ inputsOf (getNode a n), i ∈ seqset

/-- Postcondition of one (completed) `dfs` call: the emitted sequence
extends the old one, the visited set grows, a node is newly visited
exactly when it is newly emitted, newly emitted nodes were unvisited, and
`DfsPre` is maintained. -/
def DfsPost (a : Arena) (seq seqset seq1 set1 : List Nat) : Prop :=
  (∃ d, seq1 = seq ++ d) ∧ seqset ⊆ set1 ∧
    (∀ x, x ∈ set1 ↔ (x ∈ seqset ∨ (x ∈ seq1 ∧ x ∉ seq))) ∧
    (∀ x ∈ seq1, x ∈ seq ∨ x ∉ seqset) ∧
    DfsPre a seq1 set1

/-- The dependency-order property of an emitted sequence: each emitted
node's inputs occur at strictly earlier positions. -/
def InputsBefore (a : Arena) (seq : List Nat) : Prop :=
  ∀ k, k < seq.length →
    ∀ i ∈ inputsOf (getNode a (seq.getD k 0)), i ∈ seq.take k

/-- Node-to-node memo (`memo` of `clone`; Python dict keyed by object
identity). -/
def mlook (m : List (Nat × Nat)) (k : Nat) : Option Nat :=
  (m.find? (fun p => p.1 == k)).map (·.2)

/-- `Apply.clone_from_inputs` (base.py line 426) and
`Literal.clone_from_inputs` (line 688): a Literal is rebuilt from its
wrapped value; an Apply node is rebuilt with the same name, the first
`len(pos_args)` new inputs as positional arguments and the rest bound to
the original keywords.  `Apply.__init__`'s `pure` parameter is *not*
forwarded by `clone_from_inputs`, so a cloned Apply node has
`pure=False`. -/
def clone_from_inputs (n : PNode) (new_inputs : List Nat) : PNode :=
  if n.isLit then mkLiteral n.obj
  else
    { name := n.name,
      pos_args := new_inputs.take n.pos_args.length,
      named_args := (n.named_args.zip (new_inputs.drop n.pos_args.length)).map
        (fun p => (p.1.1, p.2)),
      pureN := false, isLit := false, obj := n.obj }

/-- Literal nodes are well-formed: no inputs and the reserved name
(`Literal.__init__` always builds them this way). -/
def LitOk (a : Arena) : Prop :=
  ∀ n ∈ a, n.isLit = true →
    n.pos_args = [] ∧ n.named_args = [] ∧ n.name = "literal"

instance (a : Arena) : Decidable (LitOk a) := by
  unfold LitOk; infer_instance

/-- The fold inside `clone` (the `for node in nodes` loop). -/
def cloneFold (a0 : Arena) : List Nat → Arena × List (Nat × Nat) →
    Option (Arena × List (Nat × Nat))
  | [], st => some st
  | node :: rest, (ar, m) =>
    match mlook m node with
    | some _ => cloneFold a0 rest (ar, m)
    | none =>
      match (inputsOf (getNode a0 node)).mapM (mlook m) with
      | none => none
      | some new_inputs =>
        cloneFold a0 rest
          (ar ++ [clone_from_inputs (getNode a0 node) new_inputs],
            (node, List.length ar) :: m)

/-- `clone(expr, memo)` (base.py lines 821-830): returns the grown arena,
the final memo and `memo[expr]`. -/
def clone (a : Arena) (expr : Nat) (memo : List (Nat × Nat)) :
    Option (Arena × List (Nat × Nat) × Nat) :=
  match cloneFold a (dfs a expr) (a, memo) with
  | none => none
  | some (ar, m) =>
    match mlook m expr with
    | none => none
    | some r => some (ar, m, r)

/-- A small example graph: `pos_args(add(lit 5, lit 5), add(lit 5, lit 5))`
with the two `add` nodes built separately from the *same* literal node
(shared subexpression). -/
def exArena : Arena :=
  [mkLiteral (PVal.int 5),
    { name := "add", pos_args := [0, 0], named_args := [], pureN := true },
    { name := "add", pos_args := [0, 0], named_args := [], pureN := true },
    { name := "pos_args", pos_args := [1, 2], named_args := [], pureN := true }]

/-- The comparison of base.py lines 848-857 between the current node and
one earlier node (both read from the original arena, as `node_args` is
snapshotted before the loop). -/
def mergeMatch (a0 : Arena) (node_ii node_jj : Nat) (ml : Bool) : Bool :=
  let ni := getNode a0 node_ii
  let nj := getNode a0 node_jj
  ni.name == nj.name &&
    (if ni.name == "literal" then ml && (ni.obj == nj.obj)
     else decide (ni.pos_args = nj.pos_args) &&
       decide (ni.named_args = nj.named_args))

/-- The scan of base.py lines 846-861: the first earlier node matching a
pure node, `none` for impure nodes. -/
def mergeFind (a0 : Arena) (ml : Bool) (prev : List Nat) (node : Nat) :
    Option Nat :=
  if (getNode a0 node).pureN then prev.find? (fun j => mergeMatch a0 node j ml)
  else none

/-- The loop of `clone_merge` (base.py lines 841-865); `prev` is the list
of already-scanned nodes (`nodes[:ii]`). -/
def cloneMergeFold (a0 : Arena) (ml : Bool) :
    List Nat → List Nat → Arena × List (Nat × Nat) →
    Option (Arena × List (Nat × Nat))
  | [], _, st => some st
  | node :: rest, prev, (ar, m) =>
    if (mlook m node).isSome then
      cloneMergeFold a0 ml rest (prev ++ [node]) (ar, m)
    else
      match mergeFind a0 ml prev node with
      | some j => cloneMergeFold a0 ml rest (prev ++ [node]) (ar, (node, j) :: m)
      | none =>
        match (inputsOf (getNode a0 node)).mapM (mlook m) with
        | none => none
        | some new_inputs =>
          cloneMergeFold a0 ml rest (prev ++ [node])
            (ar ++ [clone_from_inputs (getNode a0 node) new_inputs],
              (node, List.length ar) :: m)

/-- `clone_merge(expr, memo, merge_literals)` (base.py lines 833-867). -/
def clone_merge (a : Arena) (expr : Nat) (memo : List (Nat × Nat))
    (merge_literals : Bool) : Option (Arena × List (Nat × Nat) × Nat) :=
  match cloneMergeFold a merge_literals (dfs a expr) [] (a, memo) with
  | none => none
  | some (ar, m) =>
    match mlook m expr with
    | none => none
    | some r => some (ar, m, r)

/-- The dependency edges `(n_in, node)` of base.py lines 813-815. -/
def graphEdges (a : Arena) (root : Nat) : List (Nat × Nat) :=
  (dfs a root).flatMap
    (fun n => (inputsOf (getNode a n)).map (fun i => (i, n)))

/-- The node set of the built graph: all edge endpoints. -/
def graphNodes (edges : List (Nat × Nat)) : List Nat :=
  (edges.flatMap (fun e => [e.1, e.2])).dedup

/-- A node with no incoming edge from the remaining nodes. -/
def isSource (edges : List (Nat × Nat)) (rem : List Nat) (v : Nat) : Bool :=
  !(edges.any (fun e => e.2 == v && rem.contains e.1))

/-- Kahn's algorithm with fuel (`rem.length` always suffices): repeatedly
emit a source of the remaining subgraph; when none exists and nodes
remain, no linearization exists (`NetworkXUnfeasible`). -/
def kahnAux (edges : List (Nat × Nat)) : Nat → List Nat → Option (List Nat)
  | 0, rem => if rem.isEmpty then some [] else none
  | fuel + 1, rem =>
    match rem.filter (isSource edges rem) with
    | [] => if rem.isEmpty then some [] else none
    | s :: _ =>
      match kahnAux edges fuel (rem.erase s) with
      | none => none
      | some order => some (s :: order)

/-- Errors of `toposort`: the library's cycle error, the `IndexError`
from `order[-1]` on an empty order, and the `assert order[-1] == expr`
failure. -/
inductive TopoErr : Type where
  | cycleDetected : TopoErr
  | indexError : TopoErr
  | assertionFailed : TopoErr
deriving DecidableEq, Repr

/-- `toposort(expr)` (base.py lines 806-818). -/
def toposort (a : Arena) (root : Nat) : Except TopoErr (List Nat) :=
  let edges := graphEdges a root
  let gnodes := graphNodes edges
  match kahnAux edges gnodes.length gnodes with
  | none => Except.error TopoErr.cycleDetected
  | some order =>
    match order.getLast? with
    | none => Except.error TopoErr.indexError
    | some last =>
      if last = root then Except.ok order
      else Except.error TopoErr.assertionFailed

/-- A sequence respects the edges if every edge's target that occurs in
the sequence occurs strictly after the edge's source. -/
def EdgesAfter (edges : List (Nat × Nat)) (order : List Nat) : Prop :=
  ∀ p u s, order = p ++ u :: s → ∀ v, (u, v) ∈ edges → v ∈ order → v ∈ s

/-- A linearization of the graph exists (what the spec means by "the
reachable graph is acyclic"; `topological_sort` fails exactly when no
linearization exists). -/
def Linearizable (edges : List (Nat × Nat)) (gnodes : List Nat) : Prop :=
  ∃ L, L.Perm gnodes ∧ EdgesAfter edges L

instance {e w : Type} [DecidableEq e] [DecidableEq w] :
    DecidableEq (Except e w) := fun x y =>
  match x, y with
  | .error a, .error b =>
    if h : a = b then .isTrue (h ▸ rfl)
    else .isFalse (fun hc => h (Except.error.inj hc))
  | .ok a, .ok b =>
    if h : a = b then .isTrue (h ▸ rfl)
    else .isFalse (fun hc => h (Except.ok.inj hc))
  | .error _, .ok _ => .isFalse (fun hc => Except.noConfusion hc)
  | .ok _, .error _ => .isFalse (fun hc => Except.noConfusion hc)

/-- A single-node graph: one literal, no inputs. -/
def singletonArena : Arena :=
  [mkLiteral (PVal.int 5)]

/-- A memo entry: a computed value or the `GarbageCollected` sentinel. -/
inductive MemoVal : Type where
  | val : PVal → MemoVal
  | collected : MemoVal
deriving DecidableEq, Repr

/-- The evaluator memo (Python dict keyed by node identity). -/
abbrev EMemo : Type := List (Nat × MemoVal)

/-- Memo lookup. -/
def elook (m : EMemo) (k : Nat) : Option MemoVal :=
  (m.find? (fun p => p.1 == k)).map (·.2)

/-- Memo update (`memo[k] = v`). -/
def einsert (m : EMemo) (k : Nat) (v : MemoVal) : EMemo :=
  (k, v) :: m

/-- `clients[ii]` of base.py lines 1011-1015: the reachable nodes that
use `ii` as an input. -/
def clientsOf (a : Arena) (ns : List Nat) (ii : Nat) : List Nat :=
  ns.filter (fun x => (inputsOf (getNode a x)).contains ii)

/-- `set_memo` (base.py lines 1016-1028): record the value; with
`memo_gc`, afterwards replace by the tombstone every input of `k` all of
whose clients are memoized. -/
def set_memo (a : Arena) (ns : List Nat) (gc : Bool) (m : EMemo) (k : Nat)
    (v : PVal) : EMemo :=
  if gc then
    (inputsOf (getNode a k)).foldl
      (fun m2 ii =>
        if (clientsOf a ns ii).all (fun c => (elook m2 c).isSome) then
          einsert m2 ii .collected
        else m2)
      (einsert m k (.val v))
  else einsert m k (.val v)

/-- The evaluator's failure modes (base.py lines 1030-1103). -/
inductive EvalErr : Type where
  | runawayGraph : EvalErr
  | switchTypeError : EvalErr
  | switchValueError : EvalErr
  | indexError : EvalErr
  | fatalCollected : EvalErr
  | implError : EvalErr
  | keyError : EvalErr
  | outOfFuel : EvalErr
deriving DecidableEq, Repr

/-- Gather the memoized argument values of a node (base.py lines
1080-1086): `KeyError` on a missing entry, and with `memo_gc` the
`assert aa is not GarbageCollected`; without the assert the sentinel
would reach the implementation, which raises on it. -/
def gatherVals (gc : Bool) (m : EMemo) (pos : List Nat)
    (named : List (String × Nat)) :
    Except EvalErr (List PVal × List (String × PVal)) :=
  match pos.mapM (elook m),
    named.mapM (fun p => (elook m p.2).map (fun v => (p.1, v))) with
  | some argvs, some kwvs =>
    if (argvs ++ kwvs.map (·.2)).any (fun v => v == MemoVal.collected) then
      if gc then .error .fatalCollected else .error .implError
    else
      .ok (argvs.filterMap (fun mv => match mv with
            | .val v => some v
            | .collected => none),
        kwvs.filterMap (fun p => match p.2 with
            | .val v => some (p.1, v)
            | .collected => none))
  | _, _ => .error .keyError

/-- The `while todo:` loop of `rec_eval` (base.py lines 1030-1117),
returning the result of `memo[topnode]`, the final memo and the trace of
implementation invocations. -/
def recEvalLoop (impls : ImplTable) (a : Arena) (ns : List Nat) (gc : Bool)
    (maxLen : Nat) (topnode : Nat) :
    Nat → List Nat → EMemo → List Nat →
    Except EvalErr (MemoVal × EMemo × List Nat)
  | 0, _, _, _ => .error .outOfFuel
  | fuel + 1, todo, m, tr =>
    match todo with
    | [] =>
      match elook m topnode with
      | some v => .ok (v, m, tr)
      | none => .error .keyError
    | node :: rest =>
      if todo.length > maxLen then .error .runawayGraph
      else if (elook m node).isSome then
        recEvalLoop impls a ns gc maxLen topnode fuel rest m tr
      else if (getNode a node).name = "switch" then
        match (getNode a node).pos_args with
        | [] => .error .indexError
        | sv :: _ =>
          match elook m sv with
          | none =>
            recEvalLoop impls a ns gc maxLen topnode fuel
              (sv :: node :: rest) m tr
          | some .collected => .error .switchTypeError
          | some (.val sval) =>
            match sval with
            | PVal.int si =>
              if si < 0 then .error .switchValueError
              else
                match (getNode a node).pos_args.get? (si.toNat + 1) with
                | none => .error .indexError
                | some rv =>
                  match elook m rv with
                  | some (.val w) =>
                    recEvalLoop impls a ns gc maxLen topnode fuel rest
                      (set_memo a ns gc m node w) tr
                  | some .collected => .error .fatalCollected
                  | none =>
                    recEvalLoop impls a ns gc maxLen topnode fuel
                      (rv :: node :: rest) m tr
            | PVal.str _ => .error .switchTypeError
            | PVal.rngv _ => .error .switchTypeError
            | PVal.vnil => .error .switchTypeError
            | PVal.vcons _ _ => .error .switchTypeError
      else if (getNode a node).isLit then
        recEvalLoop impls a ns gc maxLen topnode fuel rest
          (set_memo a ns gc m node (getNode a node).obj) tr
      else
        match (inputsOf (getNode a node)).filter
            (fun v => (elook m v).isNone) with
        | [] =>
          match gatherVals gc m (getNode a node).pos_args
              (getNode a node).named_args with
          | .error e => .error e
          | .ok (argvs, kwvs) =>
            match impls (getNode a node).name argvs kwvs with
            | none => .error .implError
            | some rval =>
              recEvalLoop impls a ns gc maxLen topnode fuel rest
                (set_memo a ns gc m node rval) (tr ++ [node])
        | w0 :: wrest =>
          recEvalLoop impls a ns gc maxLen topnode fuel
            ((w0 :: wrest).reverse ++ node :: rest) m tr

/-- `DEFAULT_MAX_PROGRAM_LEN` (base.py line 21). -/
def DEFAULT_MAX_PROGRAM_LEN : Nat :=
  100000

/-- `rec_eval(expr, memo=..., max_program_len=..., memo_gc=...)` (base.py
lines 967-1117).  `as_apply` is the identity on nodes; a caller-supplied
memo is copied (`memo = dict(memo)`, line 1002) — the loop operates on
the copy. -/
def rec_eval (impls : ImplTable) (a : Arena) (expr : Nat)
    (memo : Option EMemo) (max_program_len : Option Nat) (memo_gc : Bool)
    (fuel : Nat) : Except EvalErr (MemoVal × EMemo × List Nat) :=
  let maxLen :=
    match max_program_len with
    | none => DEFAULT_MAX_PROGRAM_LEN
    | some v => v
  let m0 :=
    match memo with
    | none => []
    | some m => m
  let ns := dfs a expr
  recEvalLoop impls a ns memo_gc maxLen expr fuel [expr] m0 []

/-- `rec_eval` seen from a caller that supplied a memo dictionary.  The
heap of dictionaries is modelled explicitly: the caller's dict is a heap
cell; line 1002 rebinds the local `memo` to a fresh copy, modelled as a
freshly appended cell, and every write of the loop targets that fresh
cell — the caller's cell is never written. -/
def rec_eval_with_heap (impls : ImplTable) (a : Arena) (expr : Nat)
    (heap : List EMemo) (memoIdx : Nat) (max_program_len : Option Nat)
    (memo_gc : Bool) (fuel : Nat) :
    Except EvalErr MemoVal × List EMemo :=
  let callerMemo := heap.getD memoIdx []
  match rec_eval impls a expr (some callerMemo) max_program_len memo_gc
      fuel with
  | .ok (v, mfinal, _) => (.ok v, heap ++ [mfinal])
  | .error e => (.error e, heap ++ [[]])

/-- The possible transitions of one iteration of the evaluator loop on a
popped node (base.py lines 1034-1115): skip a memoized node; for a
`switch` node, wait on the selector, wait on the selected branch, or copy
the selected branch's value; store a literal's value; push the missing
inputs; or invoke the implementation and store its result. -/
def StepRel (impls : ImplTable) (a : Arena) (ns : List Nat) (gc : Bool)
    (node : Nat) (rest : List Nat) (m : EMemo) (tr : List Nat)
    (todo2 : List Nat) (m2 : EMemo) (tr2 : List Nat) : Prop :=
  ((elook m node).isSome ∧ todo2 = rest ∧ m2 = m ∧ tr2 = tr) ∨
  (elook m node = none ∧ (getNode a node).name = "switch" ∧
    (∃ sv prest, (getNode a node).pos_args = sv :: prest ∧
      ((elook m sv = none ∧ todo2 = sv :: node :: rest ∧ m2 = m ∧
          tr2 = tr) ∨
        (∃ si rv, elook m sv = some (.val (PVal.int si)) ∧ ¬ si < 0 ∧
          (getNode a node).pos_args.get? (si.toNat + 1) = some rv ∧
          ((elook m rv = none ∧ todo2 = rv :: node :: rest ∧ m2 = m ∧
              tr2 = tr) ∨
            (∃ w, elook m rv = some (.val w) ∧ todo2 = rest ∧
              m2 = set_memo a ns gc m node w ∧ tr2 = tr)))))) ∨
  (elook m node = none ∧ ¬ (getNode a node).name = "switch" ∧
    (getNode a node).isLit = true ∧ todo2 = rest ∧
    m2 = set_memo a ns gc m node (getNode a node).obj ∧ tr2 = tr) ∨
  (elook m node = none ∧ ¬ (getNode a node).name = "switch" ∧
    (getNode a node).isLit = false ∧
    (∃ w0 wrest, (inputsOf (getNode a node)).filter
        (fun v => (elook m v).isNone) = w0 :: wrest ∧
      todo2 = (w0 :: wrest).reverse ++ node :: rest ∧ m2 = m ∧
      tr2 = tr)) ∨
  (elook m node = none ∧ ¬ (getNode a node).name = "switch" ∧
    (getNode a node).isLit = false ∧
    (inputsOf (getNode a node)).filter (fun v => (elook m v).isNone) = [] ∧
    (∃ argvs kwvs rval,
      gatherVals gc m (getNode a node).pos_args
        (getNode a node).named_args = .ok (argvs, kwvs) ∧
      impls (getNode a node).name argvs kwvs = some rval ∧
      todo2 = rest ∧ m2 = set_memo a ns gc m node rval ∧
      tr2 = tr ++ [node]))

/-- A switch graph: node 4 is `switch(lit 0, identity(lit 42), Raise())`,
with node 3 a `Raise` node whose implementation always fails. -/
def swArena : Arena :=
  [mkLiteral (PVal.int 0),
   mkLiteral (PVal.int 42),
   { name := "identity", pos_args := [1], named_args := [], pureN := true },
   { name := "Raise", pos_args := [], named_args := [] },
   { name := "switch", pos_args := [0, 2, 3], named_args := [],
     pureN := true }]

/-- `implicit_stochastic_symbols` (annotate.py lines 15-20, populated by
the `@implicit_stochastic` decorations in annotate.py). -/
def implicit_stochastic_symbols : List String :=
  ["uniform", "randint", "choice", "one_of", "quantized_uniform",
   "log_uniform"]

/-- `Apply.replace_input` (base.py lines 454-464): replace every
positional or named input equal to `orig` by `draw`;
`Literal.replace_input` (base.py lines 685-686) is a no-op. -/
def replaceInputNode (orig draw : Nat) (nd : PNode) : PNode :=
  if nd.isLit then nd
  else
    { nd with
      pos_args := nd.pos_args.map (fun x => if x = orig then draw else x),
      named_args := nd.named_args.map
        (fun kv => (kv.1, if kv.2 = orig then draw else kv.2)) }

/-- The client-rewiring loop of `replace_implicit_stochastic_nodes`
(annotate.py lines 137-138): every node after the current one in the
traversal has its references to `orig` replaced by `draw`. -/
def risClients (orig draw : Nat) : List Nat → Arena → Arena
  | [], ar => ar
  | c :: cs, ar =>
    risClients orig draw cs
      (ar.set c (replaceInputNode orig draw (getNode ar c)))

/-- The main loop of `replace_implicit_stochastic_nodes` (annotate.py
lines 130-141): for each traversed node whose name is implicit
stochastic, allocate the name literal, the `draw_rng` application
carrying the node's arguments, and the two `getitem` projections (the
draw and the new generator state), rewire later clients to the draw,
track the rewritten root, and thread the generator state linearly. -/
def risFold : Arena → Nat → Nat → Option Nat → List Nat →
    Arena × Nat × Nat × Option Nat
  | ar, lrng, expr, found, [] => (ar, lrng, expr, found)
  | ar, lrng, expr, found, oi :: rest =>
    let orig := getNode ar oi
    if orig.name ∈ implicit_stochastic_symbols then
      let nameLit := asize ar
      let objId := asize ar + 1
      let idx0 := asize ar + 2
      let drawId := asize ar + 3
      let idx1 := asize ar + 4
      let nlrng := asize ar + 5
      let ar2 := ar ++
        [mkLiteral (PVal.str orig.name),
         { name := "draw_rng",
           pos_args := [lrng, nameLit] ++ orig.pos_args,
           named_args := orig.named_args },
         mkLiteral (PVal.int 0),
         { name := "getitem", pos_args := [objId, idx0],
           named_args := [], pureN := true },
         mkLiteral (PVal.int 1),
         { name := "getitem", pos_args := [objId, idx1],
           named_args := [], pureN := true }]
      let ar3 := risClients oi drawId rest ar2
      risFold ar3 nlrng (if expr = oi then drawId else expr)
        (some nlrng) rest
    else
      risFold ar lrng expr found rest

/-- `replace_implicit_stochastic_nodes` (annotate.py lines 122-142):
wrap the generator in a literal, traverse `dfs(expr)`, rewrite each
implicit-stochastic node, and return the rewritten root together with
the final generator-state node; when no stochastic node was found the
final `return expr, new_lrng` reads the never-assigned `new_lrng` and
the call fails with a NameError. -/
def replace_implicit_stochastic_nodes (a : Arena) (expr : Nat)
    (rng : PVal) : Except String ((Arena × Nat) × Nat) :=
  let lrng := asize a
  let a0 := a ++ [mkLiteral rng]
  let nodes := dfs a0 expr
  match risFold a0 lrng expr none nodes with
  | (ar, _, expr2, some nl) => .ok ((ar, expr2), nl)
  | (_, _, _, none) => .error "NameError: new_lrng"

/-- A one-node graph holding a single implicit-stochastic `uniform`
application. -/
def c7Arena : Arena :=
  [{ name := "uniform", pos_args := [], named_args := [] }]

/-- The rewrite of `c7Arena` under seed 7: the rng literal, the
`draw_rng` node carrying the original arguments, and the two `getitem`
projections. -/
def c7ArenaRw : Arena :=
  [{ name := "uniform", pos_args := [], named_args := [] },
   mkLiteral (PVal.rngv 7),
   mkLiteral (PVal.str "uniform"),
   { name := "draw_rng", pos_args := [1, 2], named_args := [] },
   mkLiteral (PVal.int 0),
   { name := "getitem", pos_args := [3, 4], named_args := [],
     pureN := true },
   mkLiteral (PVal.int 1),
   { name := "getitem", pos_args := [3, 6], named_args := [],
     pureN := true }]

/-- The evaluation result of the rewritten `c7Arena` from seed 7: the
draw is `7 % 1000003 = 7` and the threaded generator state advances to
`rngStep 7`. -/
def c7Out : MemoVal × EMemo × List Nat :=
  (MemoVal.val (PVal.int 7),
   [(5, MemoVal.val (PVal.int 7)),
    (3, MemoVal.val (PVal.vcons (PVal.int 7)
      (PVal.vcons (PVal.rngv 1282168116) PVal.vnil))),
    (1, MemoVal.val (PVal.rngv 7)),
    (2, MemoVal.val (PVal.str "uniform")),
    (4, MemoVal.val (PVal.int 0))],
   [3, 5])

theorem dfsPre_of_post {a : Arena} {seq seqset seq1 set1 : List Nat}
    (h : DfsPost a seq seqset seq1 set1) : DfsPre a seq1 set1 :=
  h.2.2.2.2

/-- `DfsPost` composes along successive calls. -/
theorem dfsPost_trans {a : Arena} {s0 t0 s1 t1 s2 t2 : List Nat}
    (h1 : DfsPost a s0 t0 s1 t1) (h2 : DfsPost a s1 t1 s2 t2) :
    DfsPost a s0 t0 s2 t2 := by
  obtain ⟨⟨d1, hd1⟩, hg1, he1, hn1, hp1⟩ := h1
  obtain ⟨⟨d2, hd2⟩, hg2, he2, hn2, hp2⟩ := h2
  have hs01 : s0 ⊆ s1 := fun x hx => by

    rw [hd1]; exact List.mem_append_left _ hx
  have hs12 : s1 ⊆ s2 := fun x hx => by

    rw [hd2]; exact List.mem_append_left _ hx
  refine ⟨⟨d1 ++ d2, by rw [hd2, hd1, List.append_assoc]⟩,
    fun x hx => hg2 (hg1 hx), ?_, ?_, hp2⟩
  · intro x
    constructor
    · intro hx
      rcases (he2 x).mp hx with hx1 | ⟨hxs2, hxs1⟩
      · rcases (he1 x).mp hx1 with hx0 | ⟨hxs1, hxs0⟩
        · exact Or.inl hx0
        · exact Or.inr ⟨hs12 hxs1, hxs0⟩
      · exact Or.inr ⟨hxs2, fun hx0 => hxs1 (hs01 hx0)⟩
    · rintro (hx0 | ⟨hxs2, hxs0⟩)
      · exact hg2 (hg1 hx0)
      · by_cases hx1 : x ∈ s1
        · exact hg2 (hp1.1 hx1)
        · exact (he2 x).mpr (Or.inr ⟨hxs2, hx1⟩)
  · intro x hx
    rcases hn2 x hx with hx1 | hx1
    · exact hn1 x hx1
    · exact Or.inr fun hx0 => hx1 (hg1 hx0)

/-- A completed call that changes nothing satisfies `DfsPost`. -/
theorem dfsPost_refl {a : Arena} {seq seqset : List Nat}
    (hpre : DfsPre a seq seqset) : DfsPost a seq seqset seq seqset := by
  refine ⟨⟨[], (List.append_nil seq).symm⟩, fun x hx => hx, ?_, fun x hx => Or.inl hx, hpre⟩
  intro x
  constructor
  · exact fun hx => Or.inl hx
  · rintro (hx | ⟨hx1, hx0⟩)
    · exact hx
    · exact absurd hx1 hx0

/-- Master structural lemma for `dfsAux`/`dfsList`: any completed call
satisfies `DfsPost`; the visited node (resp. all nodes of the input list)
ends up in the visited set; and every emitted node is an old one, the
call's argument, or an input of some visited node. -/
theorem dfs_post_all (a : Arena) : ∀ fuel,
    (∀ aa seq seqset seq1 set1, DfsPre a seq seqset →
      dfsAux a fuel aa seq seqset = some (seq1, set1) →
      DfsPost a seq seqset seq1 set1 ∧ aa ∈ set1 ∧
        ∀ n ∈ seq1, n ∈ seq ∨ n = aa ∨
          ∃ m ∈ set1, n ∈ inputsOf (getNode a m)) ∧
    (∀ l seq seqset seq1 set1, DfsPre a seq seqset →
      dfsList (dfsAux a fuel) l seq seqset = some (seq1, set1) →
      DfsPost a seq seqset seq1 set1 ∧ (∀ ii ∈ l, ii ∈ set1) ∧
        ∀ n ∈ seq1, n ∈ seq ∨ n ∈ l ∨
          ∃ m ∈ set1, n ∈ inputsOf (getNode a m)) := by
  intro fuel
  induction fuel with
  | zero =>
    constructor
    · intro aa seq seqset seq1 set1 _ h
      simp [dfsAux] at h
    · intro l seq seqset seq1 set1 hpre h
      cases l with
      | nil =>
        simp only [dfsList, Option.some.injEq, Prod.mk.injEq] at h
        obtain ⟨h1, h2⟩ := h
        subst h1; subst h2
        exact ⟨dfsPost_refl hpre, by simp, fun n hn => Or.inl hn⟩
      | cons ii rest =>
        simp [dfsList, dfsAux] at h
    | succ f ih =>
      have haux : ∀ aa seq seqset seq1 set1, DfsPre a seq seqset →
          dfsAux a (f + 1) aa seq seqset = some (seq1, set1) →
          DfsPost a seq seqset seq1 set1 ∧ aa ∈ set1 ∧
            ∀ n ∈ seq1, n ∈ seq ∨ n = aa ∨
              ∃ m ∈ set1, n ∈ inputsOf (getNode a m) := by
        intro aa seq seqset seq1 set1 hpre heq
        rw [dfsAux] at heq
        by_cases haa : aa ∈ seqset
        · simp only [haa, if_true, Option.some.injEq, Prod.mk.injEq] at heq
          obtain ⟨h1, h2⟩ := heq
          subst h1; subst h2
          exact ⟨dfsPost_refl hpre, haa, fun n hn => Or.inl hn⟩
        · simp only [haa, if_false] at heq
          rcases hlist : dfsList (dfsAux a f) (inputsOf (getNode a aa)) seq (aa :: seqset)
            with _ | ⟨s1', t1'⟩
          · rw [hlist] at heq; simp at heq
          · rw [hlist] at heq
            simp only [Option.some.injEq, Prod.mk.injEq] at heq
            obtain ⟨h1, h2⟩ := heq
            subst h1; subst h2
            have hpre' : DfsPre a seq (aa :: seqset) :=
              ⟨fun x hx => List.mem_cons_of_mem _ (hpre.1 hx), hpre.2.1,
                fun n hn i hi => List.mem_cons_of_mem _ (hpre.2.2 n hn i hi)⟩
            obtain ⟨hpost', hmem', hcons'⟩ := (ih.2) _ _ _ _ _ hpre' hlist
            obtain ⟨⟨d', hd'⟩, hg', he', hn', hp'⟩ := hpost'
            have haaseq : aa ∉ seq := fun h => haa (hpre.1 h)
            have haat : aa ∈ t1' := hg' (List.mem_cons_self _ _)
            have haas1 : aa ∉ s1' := by
              intro hmem
              rcases hn' aa hmem with h | h
              · exact haaseq h
              · exact h (List.mem_cons_self _ _)
            refine ⟨⟨⟨d' ++ [aa], by rw [hd', List.append_assoc]⟩,
              fun x hx => hg' (List.mem_cons_of_mem _ hx), ?_, ?_, ?_, ?_, ?_⟩,
              haat, ?_⟩
            · intro x
              constructor
              · intro hx
                rcases (he' x).mp hx with hx1 | ⟨hx1, hx0⟩
                · rcases List.mem_cons.mp hx1 with hx2 | hx2
                  · subst hx2
                    exact Or.inr ⟨List.mem_append_right _ (List.mem_singleton_self _), haaseq⟩
                  · exact Or.inl hx2
                · exact Or.inr ⟨List.mem_append_left _ hx1, hx0⟩
              · rintro (hx | ⟨hx1, hx0⟩)
                · exact hg' (List.mem_cons_of_mem _ hx)
                · rcases List.mem_append.mp hx1 with hx2 | hx2
                  · exact (he' x).mpr (Or.inr ⟨hx2, hx0⟩)
                  · rw [List.mem_singleton] at hx2
                    subst hx2
                    exact haat
            · intro x hx
              rcases List.mem_append.mp hx with hx1 | hx1
              · rcases hn' x hx1 with h | h
                · exact Or.inl h
                · exact Or.inr fun h0 => h (List.mem_cons_of_mem _ h0)
              · rw [List.mem_singleton] at hx1
                subst hx1
                exact Or.inr haa
            · intro x hx
              rcases List.mem_append.mp hx with hx1 | hx1
              · exact hp'.1 hx1
              · rw [List.mem_singleton] at hx1
                subst hx1
                exact haat
            · rw [List.nodup_append]
              exact ⟨hp'.2.1, List.nodup_singleton _,
                fun x hx1 hx2 => by
                  rw [List.mem_singleton] at hx2
                  subst hx2
                  exact haas1 hx1⟩
            · intro n hn i hi
              rcases List.mem_append.mp hn with hn1 | hn1
              · exact hp'.2.2 n hn1 i hi
              · rw [List.mem_singleton] at hn1
                subst hn1
                exact hmem' i hi
            · intro n hn
              rcases List.mem_append.mp hn with hn1 | hn1
              · rcases hcons' n hn1 with h | h | h
                · exact Or.inl h
                · exact Or.inr (Or.inr ⟨aa, haat, h⟩)
                · exact Or.inr (Or.inr h)
              · rw [List.mem_singleton] at hn1
                subst hn1
                exact Or.inr (Or.inl rfl)
      refine ⟨haux, ?_⟩
      intro l
      induction l with
      | nil =>
        intro seq seqset seq1 set1 hpre h
        simp only [dfsList, Option.some.injEq, Prod.mk.injEq] at h
        obtain ⟨h1, h2⟩ := h
        subst h1; subst h2
        exact ⟨dfsPost_refl hpre, by simp, fun n hn => Or.inl hn⟩
      | cons ii rest ihl =>
        intro seq seqset seq1 set1 hpre h
        rw [dfsList] at h
        rcases hstep : dfsAux a (f + 1) ii seq seqset with _ | ⟨s1', t1'⟩
        · rw [hstep] at h; simp at h
        · rw [hstep] at h
          obtain ⟨hpost1, hii, hcons1⟩ := haux _ _ _ _ _ hpre hstep
          obtain ⟨hpost2, hrest, hcons2⟩ := ihl _ _ _ _ (dfsPre_of_post hpost1) h
          have ht12 : t1' ⊆ set1 := hpost2.2.1
          refine ⟨dfsPost_trans hpost1 hpost2, ?_, ?_⟩
          · intro jj hjj
            rcases List.mem_cons.mp hjj with h1 | h1
            · subst h1; exact ht12 hii
            · exact hrest jj h1
          · intro n hn
            rcases hcons2 n hn with h1 | h1 | h1
            · rcases hcons1 n h1 with h2 | h2 | h2
              · exact Or.inl h2
              · subst h2; exact Or.inr (Or.inl (List.mem_cons_self _ _))
              · obtain ⟨m, hm, hmi⟩ := h2
                exact Or.inr (Or.inr ⟨m, ht12 hm, hmi⟩)
            · exact Or.inr (Or.inl (List.mem_cons_of_mem _ h1))
            · exact Or.inr (Or.inr h1)

/-- Inputs of any dereferenced node lie in the id universe. -/
theorem inputs_mem_idUniverse (a : Arena) (root : Nat) (aa : Nat) :
    ∀ i ∈ inputsOf (getNode a aa), i ∈ idUniverse a root := by
  intro i hi
  rw [idUniverse, List.mem_dedup]
  by_cases h : aa < List.length a
  · refine List.mem_cons_of_mem _ ?_
    rw [List.mem_flatMap]
    exact ⟨getNode a aa, by rw [getNode, List.getD_eq_getElem _ _ h]; exact List.getElem_mem h, hi⟩
  · rw [getNode, List.getD_eq_default _ _ (Nat.le_of_not_lt h)] at hi
    exact absurd hi (by simp [inputsOf, default])

/-- The fuel bound `dfsFuel` is sufficient: with enough fuel relative to
the visited set, `dfsAux`/`dfsList` always complete, and the visited set
stays inside the id universe. -/
theorem dfs_some_all (a : Arena) (root : Nat) : ∀ fuel,
    (∀ aa seq seqset, aa ∈ idUniverse a root →
      seqset ⊆ idUniverse a root → seqset.Nodup →
      (idUniverse a root).length + 1 ≤ fuel + seqset.length →
      ∃ out, dfsAux a fuel aa seq seqset = some out ∧
        out.2 ⊆ idUniverse a root ∧ out.2.Nodup ∧ seqset ⊆ out.2) ∧
    (∀ l seq seqset, (∀ ii ∈ l, ii ∈ idUniverse a root) →
      seqset ⊆ idUniverse a root → seqset.Nodup →
      (idUniverse a root).length + 1 ≤ fuel + seqset.length →
      ∃ out, dfsList (dfsAux a fuel) l seq seqset = some out ∧
        out.2 ⊆ idUniverse a root ∧ out.2.Nodup ∧ seqset ⊆ out.2) := by
  intro fuel
  induction fuel with
  | zero =>
    have hcontra : ∀ seqset : List Nat, seqset ⊆ idUniverse a root →
        seqset.Nodup → (idUniverse a root).length + 1 ≤ 0 + seqset.length →
        False := by
      intro seqset hsub hnd hle
      have := List.Subperm.length_le (hnd.subperm hsub)
      omega
    constructor
    · intro aa seq seqset _ hsub hnd hle
      exact (hcontra seqset hsub hnd hle).elim
    · intro l seq seqset hl hsub hnd hle
      exact (hcontra seqset hsub hnd hle).elim
  | succ f ih =>
    have haux : ∀ aa seq seqset, aa ∈ idUniverse a root →
        seqset ⊆ idUniverse a root → seqset.Nodup →
        (idUniverse a root).length + 1 ≤ (f + 1) + seqset.length →
        ∃ out, dfsAux a (f + 1) aa seq seqset = some out ∧
          out.2 ⊆ idUniverse a root ∧ out.2.Nodup ∧ seqset ⊆ out.2 := by
      intro aa seq seqset haa hsub hnd hle
      rw [dfsAux]
      by_cases hmem : aa ∈ seqset
      · exact ⟨(seq, seqset), by simp [hmem], hsub, hnd, fun x hx => hx⟩
      · simp only [hmem, if_false]
        have hsub' : (aa :: seqset) ⊆ idUniverse a root := by
          intro x hx
          rcases List.mem_cons.mp hx with h | h
          · subst h; exact haa
          · exact hsub h
        have hnd' : (aa :: seqset).Nodup := List.nodup_cons.mpr ⟨hmem, hnd⟩
        have hle' : (idUniverse a root).length + 1 ≤ f + (aa :: seqset).length := by
          simp only [List.length_cons]; omega
        obtain ⟨out, hout, ho1, ho2, ho3⟩ :=
          ih.2 (inputsOf (getNode a aa)) seq (aa :: seqset)
            (inputs_mem_idUniverse a root aa) hsub' hnd' hle'
        refine ⟨(out.1 ++ [aa], out.2), ?_, ho1, ho2,
          fun x hx => ho3 (List.mem_cons_of_mem _ hx)⟩
        rw [hout]
    refine ⟨haux, ?_⟩
    intro l
    induction l with
    | nil =>
      intro seq seqset _ hsub hnd _
      exact ⟨(seq, seqset), by rw [dfsList], hsub, hnd, fun x hx => hx⟩
    | cons ii rest ihl =>
      intro seq seqset hl hsub hnd hle
      obtain ⟨out, hout, ho1, ho2, ho3⟩ :=
        haux ii seq seqset (hl ii (List.mem_cons_self _ _)) hsub hnd hle
      have hlen : seqset.length ≤ out.2.length :=
        List.Subperm.length_le (hnd.subperm ho3)
      obtain ⟨out2, hout2, ho21, ho22, ho23⟩ :=
        ihl out.1 out.2 (fun jj hjj => hl jj (List.mem_cons_of_mem _ hjj))
          ho1 ho2 (by omega)
      refine ⟨out2, ?_, ho21, ho22, fun x hx => ho23 (ho3 hx)⟩
      rw [dfsList, hout]
      exact hout2

/-- `dfs` from a fresh state completes with the chosen fuel. -/
theorem dfs_eq_some (a : Arena) (root : Nat) :
    ∃ set1, dfsAux a (dfsFuel a root) root [] [] = some (dfs a root, set1) := by
  have hroot : root ∈ idUniverse a root := by
    rw [idUniverse, List.mem_dedup]
    exact List.mem_cons_self _ _
  obtain ⟨out, hout, -, -, -⟩ :=
    (dfs_some_all a root (dfsFuel a root)).1 root [] []
      hroot (by simp) List.nodup_nil (by rw [dfsFuel]; omega)
  refine ⟨out.2, ?_⟩
  rw [dfs, hout]
  simp

/-- Basic properties of `dfs(root)`: no duplicates, the root is visited,
the visited sequence is closed under inputs, and every visited node other
than the root is an input of some visited node. -/
theorem dfs_props (a : Arena) (root : Nat) :
    (dfs a root).Nodup ∧ root ∈ dfs a root ∧
      (∀ n ∈ dfs a root, ∀ i ∈ inputsOf (getNode a n), i ∈ dfs a root) ∧
      (∀ n ∈ dfs a root, n = root ∨
        ∃ m ∈ dfs a root, n ∈ inputsOf (getNode a m)) := by
  obtain ⟨set1, hrun⟩ := dfs_eq_some a root
  have hpre : DfsPre a [] [] := ⟨by simp, List.nodup_nil, by simp⟩
  obtain ⟨hpost, hroot, hcons⟩ :=
    (dfs_post_all a (dfsFuel a root)).1 root [] [] (dfs a root) set1 hpre hrun
  obtain ⟨-, -, he, -, -, hnd, hclo⟩ := hpost
  have hset : ∀ x, x ∈ set1 ↔ x ∈ dfs a root := by
    intro x
    rw [he x]
    simp
  refine ⟨hnd, (hset root).mp hroot, ?_, ?_⟩
  · intro n hn i hi
    exact (hset i).mp (hclo n hn i hi)
  · intro n hn
    rcases hcons n hn with h | h | ⟨m, hm, hmi⟩
    · simp at h
    · exact Or.inl h
    · exact Or.inr ⟨m, (hset m).mp hm, hmi⟩

/-- In a constructively built arena every dereference has inputs with
strictly smaller indices. -/
theorem wfArena_strict {a : Arena} (h : WfArena a) :
    ∀ j, ∀ i ∈ inputsOf (getNode a j), i < j := by
  intro j i hi
  by_cases hj : j < asize a
  · exact h j hj i hi
  · rw [getNode, List.getD_eq_default _ _ (Nat.le_of_not_lt hj)] at hi
    exact absurd hi (by simp [inputsOf, default])

/-- On a constructively built arena, `dfs` emits every node after all of
its inputs. -/
theorem dfs_order_all (a : Arena)
    (hwf : ∀ j, ∀ i ∈ inputsOf (getNode a j), i < j) : ∀ fuel,
    (∀ aa seq seqset seq1 set1, DfsPre a seq seqset →
      (∀ x ∈ seqset, x ∉ seq → aa ≤ x) →
      InputsBefore a seq →
      dfsAux a fuel aa seq seqset = some (seq1, set1) →
      InputsBefore a seq1) ∧
    (∀ l seq seqset seq1 set1, DfsPre a seq seqset →
      (∀ ii ∈ l, ∀ x ∈ seqset, x ∉ seq → ii ≤ x) →
      InputsBefore a seq →
      dfsList (dfsAux a fuel) l seq seqset = some (seq1, set1) →
      InputsBefore a seq1) := by
  intro fuel
  induction fuel with
  | zero =>
    constructor
    · intro aa seq seqset seq1 set1 _ _ _ h
      simp [dfsAux] at h
    · intro l seq seqset seq1 set1 _ _ hib h
      cases l with
      | nil =>
        simp only [dfsList, Option.some.injEq, Prod.mk.injEq] at h
        obtain ⟨h1, h2⟩ := h
        subst h1
        exact hib
      | cons ii rest => simp [dfsList, dfsAux] at h
  | succ f ih =>
    have haux : ∀ aa seq seqset seq1 set1, DfsPre a seq seqset →
        (∀ x ∈ seqset, x ∉ seq → aa ≤ x) →
        InputsBefore a seq →
        dfsAux a (f + 1) aa seq seqset = some (seq1, set1) →
        InputsBefore a seq1 := by
      intro aa seq seqset seq1 set1 hpre hstack hib heq
      rw [dfsAux] at heq
      by_cases haa : aa ∈ seqset
      · simp only [haa, if_true, Option.some.injEq, Prod.mk.injEq] at heq
        obtain ⟨h1, h2⟩ := heq
        subst h1
        exact hib
      · simp only [haa, if_false] at heq
        rcases hlist : dfsList (dfsAux a f) (inputsOf (getNode a aa)) seq (aa :: seqset)
          with _ | ⟨s1', t1'⟩
        · rw [hlist] at heq; simp at heq
        · rw [hlist] at heq
          simp only [Option.some.injEq, Prod.mk.injEq] at heq
          obtain ⟨h1, h2⟩ := heq
          subst h1; subst h2
          have hpre' : DfsPre a seq (aa :: seqset) :=
            ⟨fun x hx => List.mem_cons_of_mem _ (hpre.1 hx), hpre.2.1,
              fun n hn i hi => List.mem_cons_of_mem _ (hpre.2.2 n hn i hi)⟩
          have hstack' : ∀ ii ∈ inputsOf (getNode a aa),
              ∀ x ∈ (aa :: seqset), x ∉ seq → ii ≤ x := by
            intro ii hii x hx hxs
            rcases List.mem_cons.mp hx with h | h
            · rw [h]; exact Nat.le_of_lt (hwf aa ii hii)
            · exact Nat.le_trans (Nat.le_of_lt (hwf aa ii hii)) (hstack x h hxs)
          have hib1 : InputsBefore a s1' := ih.2 _ _ _ _ _ hpre' hstack' hib hlist
          obtain ⟨hpost', hmem', -⟩ :=
            (dfs_post_all a f).2 _ _ _ _ _ hpre' hlist
          obtain ⟨⟨d', hd'⟩, hg', he', hn', hp'⟩ := hpost'
          have hinputs : ∀ i ∈ inputsOf (getNode a aa), i ∈ s1' := by
            intro i hi
            have hit : i ∈ t1' := hmem' i hi
            rcases (he' i).mp hit with h | ⟨h1, _⟩
            · rcases List.mem_cons.mp h with h2 | h2
              · exact absurd h2 (Nat.ne_of_lt (hwf aa i hi))
              · by_cases hseq : i ∈ seq
                · rw [hd']; exact List.mem_append_left _ hseq
                · exact absurd (hstack i h2 hseq)
                    (Nat.not_le_of_lt (hwf aa i hi))
            · exact h1
          intro k hk i hi
          rw [List.length_append, List.length_singleton] at hk
          by_cases hkl : k < s1'.length
          · rw [List.getD_append _ _ _ _ hkl] at hi
            have := hib1 k hkl i hi
            rw [List.take_append_eq_append_take]
            exact List.mem_append_left _ this
          · have hkeq : k = s1'.length := by omega
            subst hkeq
            rw [List.getD_append_right _ _ _ _ (Nat.le_refl _)] at hi
            simp only [Nat.sub_self, List.getD_cons_zero] at hi
            rw [List.take_append_eq_append_take, Nat.sub_self, List.take_zero,
              List.append_nil, List.take_of_length_le (Nat.le_refl _)]
            exact hinputs i hi
    refine ⟨haux, ?_⟩
    intro l
    induction l with
    | nil =>
      intro seq seqset seq1 set1 _ _ hib h
      simp only [dfsList, Option.some.injEq, Prod.mk.injEq] at h
      obtain ⟨h1, h2⟩ := h
      subst h1
      exact hib
    | cons ii rest ihl =>
      intro seq seqset seq1 set1 hpre hstack hib h
      rw [dfsList] at h
      rcases hstep : dfsAux a (f + 1) ii seq seqset with _ | ⟨s1', t1'⟩
      · rw [hstep] at h; simp at h
      · rw [hstep] at h
        obtain ⟨hpost1, -, -⟩ := (dfs_post_all a (f + 1)).1 _ _ _ _ _ hpre hstep
        have hib1 : InputsBefore a s1' :=
          haux _ _ _ _ _ hpre (fun x hx hxs => hstack ii (List.mem_cons_self _ _) x hx hxs) hib hstep
        have hstack1 : ∀ jj ∈ rest, ∀ x ∈ t1', x ∉ s1' → jj ≤ x := by
          intro jj hjj x hx hxs
          obtain ⟨⟨d1, hd1⟩, hg1, he1, hn1, hp1⟩ := hpost1
          rcases (he1 x).mp hx with h1 | ⟨h1, _⟩
          · refine hstack jj (List.mem_cons_of_mem _ hjj) x h1 ?_
            intro hxseq
            exact hxs (by rw [hd1]; exact List.mem_append_left _ hxseq)
          · exact absurd h1 hxs
        exact ihl _ _ _ _ (dfsPre_of_post hpost1) hstack1 hib1 h

/-- Splitting form of `InputsBefore`: in a dependency-ordered sequence,
all inputs of a node lie in the part before it. -/
theorem inputsBefore_split {a : Arena} {seq p s : List Nat} {n : Nat}
    (hib : InputsBefore a seq) (hsplit : seq = p ++ n :: s) :
    ∀ i ∈ inputsOf (getNode a n), i ∈ p := by
  intro i hi
  have hk : p.length < seq.length := by
    rw [hsplit, List.length_append, List.length_cons]; omega
  have hget : seq.getD p.length 0 = n := by
    rw [hsplit, List.getD_append_right _ _ _ _ (Nat.le_refl _), Nat.sub_self,
      List.getD_cons_zero]
  have htake : seq.take p.length = p := by
    rw [hsplit, List.take_append_eq_append_take, Nat.sub_self, List.take_zero,
      List.append_nil, List.take_of_length_le (Nat.le_refl _)]
  have := hib p.length hk i (by rw [hget]; exact hi)
  rwa [htake] at this

/-- `dfs` on a constructively built arena emits nodes after their
inputs. -/
theorem dfs_inputsBefore (a : Arena) (root : Nat) (hwf : WfArena a) :
    InputsBefore a (dfs a root) := by
  obtain ⟨set1, hrun⟩ := dfs_eq_some a root
  have hpre : DfsPre a [] [] := ⟨by simp, List.nodup_nil, by simp⟩
  have hib0 : InputsBefore a [] := by
    intro k hk
    simp at hk
  exact (dfs_order_all a (wfArena_strict hwf) (dfsFuel a root)).1 root [] []
    (dfs a root) set1 hpre (by simp) hib0 hrun

/-- An `Option`-valued map over a list succeeds when it succeeds
pointwise. -/
theorem mapM_option_isSome {α β : Type} (f : α → Option β) :
    ∀ l : List α, (∀ x ∈ l, (f x).isSome) → ∃ ys, l.mapM f = some ys := by
  intro l
  induction l with
  | nil => exact fun _ => ⟨[], rfl⟩
  | cons x xs ihx =>
    intro h
    obtain ⟨y, hy⟩ := Option.isSome_iff_exists.mp (h x (List.mem_cons_self _ _))
    obtain ⟨ys, hys⟩ := ihx (fun z hz => h z (List.mem_cons_of_mem _ hz))
    exact ⟨y :: ys, by rw [List.mapM_cons, hy, hys]; rfl⟩

/-- Arena lookups are stable under appending new nodes. -/
theorem getNode_append_lt {ar : Arena} {x : PNode} {i : Nat}
    (h : i < asize ar) : getNode (ar ++ [x]) i = getNode ar i := by
  rw [getNode, getNode, List.getD_append _ _ _ _ h]

/-- The freshly appended arena entry. -/
theorem getNode_append_self {ar : Arena} {x : PNode} :
    getNode (ar ++ [x]) (asize ar) = x := by
  rw [getNode, List.getD_append_right _ _ _ _ (Nat.le_refl _), Nat.sub_self]
  rfl

/-!
## `clone` (base.py lines 821-830)

`clone(expr, memo)` walks `dfs(expr)`; a node already in `memo` (the
substitution map) is kept, any other node is rebuilt by
`clone_from_inputs` from the memo-images of its inputs and recorded in the
memo.  The memo maps node identities to node identities, so it is a map
from arena ids to arena ids here; a missing input id models the Python
`KeyError`.
-/

/-- The rebuilt node has exactly the supplied inputs (in order) when the
count matches. -/
theorem inputsOf_clone_from_inputs {n : PNode} {new_inputs : List Nat}
    (hlen : new_inputs.length = (inputsOf n).length)
    (hlit : n.isLit = true → n.pos_args = [] ∧ n.named_args = []) :
    inputsOf (clone_from_inputs n new_inputs) = new_inputs := by
  rw [clone_from_inputs]
  by_cases h : n.isLit
  · obtain ⟨h1, h2⟩ := hlit h
    rw [if_pos h]
    rw [inputsOf, h1, h2] at hlen
    simp only [List.map_nil, List.append_nil, List.length_nil] at hlen
    rw [List.length_eq_zero.mp hlen]
    rfl
  · rw [if_neg h, inputsOf]
    simp only [List.map_map]
    rw [inputsOf, List.length_append, List.length_map] at hlen
    have hcomp : ((fun q : String × Nat => q.2) ∘
        (fun p : (String × Nat) × Nat => (p.1.1, p.2))) = Prod.snd := rfl
    rw [hcomp, List.map_snd_zip _ _ (by rw [List.length_drop]; omega),
      List.take_append_drop]

/-- Lookup after inserting a binding for the same key. -/
theorem mlook_cons_self {m : List (Nat × Nat)} {k v : Nat} :
    mlook ((k, v) :: m) k = some v := by
  rw [mlook, List.find?_cons]
  simp

/-- Lookup after inserting a binding for a different key. -/
theorem mlook_cons_ne {m : List (Nat × Nat)} {k v x : Nat} (h : k ≠ x) :
    mlook ((k, v) :: m) x = mlook m x := by
  rw [mlook, List.find?_cons]
  have : ((k, v).1 == x) = false := by
    simp [h]
  rw [this]
  rfl

/-- A successful `mapM` has pointwise-successful lookups. -/
theorem mapM_option_mem_isSome {α β : Type} {f : α → Option β}
    {l : List α} {ys : List β} (h : l.mapM f = some ys) :
    ∀ x ∈ l, (f x).isSome := by
  induction l generalizing ys with
  | nil => intro x hx; simp at hx
  | cons z zs ihz =>
    intro x hx
    rw [List.mapM_cons] at h
    rcases hf : f z with _ | w
    · rw [hf] at h; simp at h
    · rw [hf] at h
      simp only [Option.bind_eq_bind, Option.some_bind] at h
      rcases hrest : zs.mapM f with _ | ws
      · rw [hrest] at h; simp at h
      · rcases List.mem_cons.mp hx with h1 | h1
        · subst h1; rw [hf]; rfl
        · exact ihz hrest x h1

/-- A successful `mapM` preserves length. -/
theorem mapM_option_length {α β : Type} {f : α → Option β}
    {l : List α} {ys : List β} (h : l.mapM f = some ys) :
    ys.length = l.length := by
  induction l generalizing ys with
  | nil =>
    rw [show ([] : List α).mapM f = some [] from rfl] at h
    cases h
    rfl
  | cons z zs ihz =>
    rw [List.mapM_cons] at h
    rcases hf : f z with _ | w
    · rw [hf] at h
      simp only [Option.bind_eq_bind, Option.none_bind] at h
      exact Option.noConfusion h
    · rw [hf] at h
      simp only [Option.bind_eq_bind, Option.some_bind] at h
      rcases hrest : zs.mapM f with _ | ws
      · rw [hrest] at h; simp at h
      · rw [hrest] at h
        simp only [Option.bind_eq_bind, Option.some_bind] at h
        cases h
        rw [List.length_cons, List.length_cons, ihz hrest]

/-- `mapM` only depends on the function's values on the list. -/
theorem mapM_option_congr {α β : Type} {f g : α → Option β} :
    ∀ {l : List α}, (∀ x ∈ l, f x = g x) → l.mapM f = l.mapM g := by
  intro l
  induction l with
  | nil => intro _; rfl
  | cons z zs ihz =>
    intro h
    rw [List.mapM_cons, List.mapM_cons, h z (List.mem_cons_self _ _),
      ihz (fun x hx => h x (List.mem_cons_of_mem _ hx))]

/-- `dfs` only visits ids from the id universe. -/
theorem dfs_subset_idUniverse (a : Arena) (root : Nat) :
    ∀ n ∈ dfs a root, n ∈ idUniverse a root := by
  have hroot : root ∈ idUniverse a root := by
    rw [idUniverse, List.mem_dedup]
    exact List.mem_cons_self _ _
  obtain ⟨out, hout, ho1, -, -⟩ :=
    (dfs_some_all a root (dfsFuel a root)).1 root [] []
      hroot (by simp) List.nodup_nil (by rw [dfsFuel]; omega)
  have hdfs : dfs a root = out.1 := by
    rw [dfs, hout]
    rfl
  intro n hn
  rw [hdfs] at hn
  have hpre : DfsPre a [] [] := ⟨by simp, List.nodup_nil, by simp⟩
  obtain ⟨hpost, -, -⟩ :=
    (dfs_post_all a (dfsFuel a root)).1 root [] [] out.1 out.2 hpre
      (by rw [hout])
  exact ho1 ((dfsPre_of_post hpost).1 hn)

/-- On a constructively built arena all ids in the universe of a valid
root are valid. -/
theorem idUniverse_lt (a : Arena) (root : Nat) (hwf : WfArena a)
    (hroot : root < asize a) : ∀ x ∈ idUniverse a root, x < asize a := by
  intro x hx
  rw [idUniverse, List.mem_dedup] at hx
  rcases List.mem_cons.mp hx with h | h
  · subst h; exact hroot
  · rw [List.mem_flatMap] at h
    obtain ⟨n, hn, hxn⟩ := h
    obtain ⟨j, hj, hget⟩ := List.mem_iff_getElem.mp hn
    have : getNode a j = n := by
      rw [getNode, List.getD_eq_getElem _ _ hj, hget]
    exact Nat.lt_trans (hwf j hj x (by rw [this]; exact hxn)) hj

/-- All nodes visited from a valid root of a constructively built arena
are valid. -/
theorem dfs_lt_asize (a : Arena) (root : Nat) (hwf : WfArena a)
    (hroot : root < asize a) : ∀ n ∈ dfs a root, n < asize a :=
  fun n hn => idUniverse_lt a root hwf hroot n (dfs_subset_idUniverse a root n hn)

/-- `clone_from_inputs` preserves the operation name (a Literal is
rebuilt as a Literal). -/
theorem name_clone_from_inputs {n : PNode} {ni : List Nat}
    (hname : n.isLit = true → n.name = "literal") :
    (clone_from_inputs n ni).name = n.name := by
  rw [clone_from_inputs]
  by_cases h : n.isLit
  · rw [if_pos h, hname h]; rfl
  · rw [if_neg h]

/-- Loop invariant of `clone` (base.py lines 824-829): the arena only
grows by the clones, one fresh clone is recorded for every processed node
not covered by the incoming memo, covered nodes keep their mapping, and
each clone's inputs are exactly the memo-images of the original's
inputs. -/
theorem cloneFold_inv (a : Arena) (memo0 : List (Nat × Nat))
    (hlit : LitOk a) (full : List Nat) (hnd : full.Nodup)
    (hib : ∀ p n s, full = p ++ n :: s → ∀ i ∈ inputsOf (getNode a n), i ∈ p)
    (hval : ∀ n ∈ full, n < asize a) :
    ∀ rest processed ar m,
      processed ++ rest = full →
      (∃ ext, ar = a ++ ext) →
      asize ar = asize a +
        (processed.filter (fun n => (mlook memo0 n).isNone)).length →
      (∀ k v, mlook memo0 k = some v → mlook m k = some v) →
      (∀ n, (mlook m n).isSome ↔ ((mlook memo0 n).isSome ∨ n ∈ processed)) →
      (∀ n ∈ processed, mlook memo0 n = none → ∃ c, mlook m n = some c ∧
        asize a ≤ c ∧ c < asize ar ∧
        (getNode ar c).name = (getNode a n).name ∧
        (inputsOf (getNode a n)).mapM (mlook m) =
          some (inputsOf (getNode ar c))) →
      ∃ ar2 m2, cloneFold a rest (ar, m) = some (ar2, m2) ∧
        (∃ ext, ar2 = a ++ ext) ∧
        asize ar2 = asize a +
          ((processed ++ rest).filter (fun n => (mlook memo0 n).isNone)).length ∧
        (∀ k v, mlook memo0 k = some v → mlook m2 k = some v) ∧
        (∀ n, (mlook m2 n).isSome ↔
          ((mlook memo0 n).isSome ∨ n ∈ processed ++ rest)) ∧
        (∀ n ∈ processed ++ rest, mlook memo0 n = none →
          ∃ c, mlook m2 n = some c ∧ asize a ≤ c ∧ c < asize ar2 ∧
            (getNode ar2 c).name = (getNode a n).name ∧
            (inputsOf (getNode a n)).mapM (mlook m2) =
              some (inputsOf (getNode ar2 c))) := by
  intro rest
  induction rest with
  | nil =>
    intro processed ar m hfull hext hcount hm0 hdom hclone
    refine ⟨ar, m, rfl, hext, ?_, hm0, ?_, ?_⟩
    · rw [List.append_nil]; exact hcount
    · intro n; rw [List.append_nil]; exact hdom n
    · intro n hn
      rw [List.append_nil] at hn
      exact hclone n hn
  | cons node rest' ih =>
    intro processed ar m hfull hext hcount hm0 hdom hclone
    have hnode_not_proc : node ∉ processed := by
      intro hmem
      have hdisj : processed.Disjoint (node :: rest') := by
        rw [← hfull] at hnd
        exact List.disjoint_of_nodup_append hnd
      exact hdisj hmem (List.mem_cons_self _ _)
    have hfull' : (processed ++ [node]) ++ rest' = full := by
      rw [List.append_assoc, List.singleton_append]; exact hfull
    rw [cloneFold]
    rcases hmn : mlook m node with _ | c0
    · -- node not yet in the memo: clone it
      have hmemo0 : mlook memo0 node = none := by
        rcases h0 : mlook memo0 node with _ | v
        · rfl
        · have := hm0 node v h0
          rw [hmn] at this
          exact Option.noConfusion this
      -- all inputs are already resolved
      have hinp_some : ∀ i ∈ inputsOf (getNode a node), (mlook m i).isSome := by
        intro i hi
        have hip : i ∈ processed := hib processed node rest' hfull.symm i hi
        exact (hdom i).mpr (Or.inr hip)
      obtain ⟨ni, hni⟩ := mapM_option_isSome (mlook m) _ hinp_some
      rw [hni]
      set cl := clone_from_inputs (getNode a node) ni with hcl
      have hlen : ni.length = (inputsOf (getNode a node)).length :=
        mapM_option_length hni
      have hnode_lt : node < asize a := hval node (by
        rw [← hfull]; exact List.mem_append_right _ (List.mem_cons_self _ _))
      have hmem_a : getNode a node ∈ a := by
        rw [getNode, List.getD_eq_getElem _ _ hnode_lt]
        exact List.getElem_mem hnode_lt
      have hlit_node : (getNode a node).isLit = true →
          (getNode a node).pos_args = [] ∧ (getNode a node).named_args = [] :=
        fun h => ⟨(hlit _ hmem_a h).1, (hlit _ hmem_a h).2.1⟩
      have hname_node : (getNode a node).isLit = true →
          (getNode a node).name = "literal" :=
        fun h => (hlit _ hmem_a h).2.2
      have hcl_inputs : inputsOf cl = ni :=
        inputsOf_clone_from_inputs hlen hlit_node
      -- the new memo only adds the fresh binding
      have hmlook' : ∀ x, x ≠ node →
          mlook ((node, List.length ar) :: m) x = mlook m x :=
        fun x hx => mlook_cons_ne (fun h => hx h.symm)
      have hmlook_node : mlook ((node, List.length ar) :: m) node =
          some (List.length ar) := mlook_cons_self
      -- apply the induction hypothesis to the extended state
      have harlen : asize (ar ++ [cl]) = asize ar + 1 := by
        show (ar ++ [cl]).length = ar.length + 1
        simp
      refine ih (processed ++ [node]) (ar ++ [cl])
        ((node, List.length ar) :: m) hfull' ?_ ?_ ?_ ?_ ?_ |>.imp ?_
      · obtain ⟨ext, hexteq⟩ := hext
        exact ⟨ext ++ [cl], by rw [hexteq, List.append_assoc]⟩
      · rw [List.filter_append, List.length_append]
        have h1 : (List.filter (fun n => (mlook memo0 n).isNone) [node]).length = 1 := by
          simp [List.filter_cons, hmemo0]
        rw [h1, harlen, hcount]
        omega
      · intro k v hk
        have hkne : k ≠ node := by
          intro h
          rw [h, hmemo0] at hk
          exact Option.noConfusion hk
        rw [hmlook' k hkne]
        exact hm0 k v hk
      · intro n
        by_cases hn : n = node
        · subst hn
          rw [hmlook_node]
          simp only [Option.isSome_some, true_iff]
          exact Or.inr (List.mem_append_right _ (List.mem_singleton_self _))
        · rw [hmlook' n hn, hdom n]
          constructor
          · rintro (h | h)
            · exact Or.inl h
            · exact Or.inr (List.mem_append_left _ h)
          · rintro (h | h)
            · exact Or.inl h
            · rcases List.mem_append.mp h with h1 | h1
              · exact Or.inr h1
              · rw [List.mem_singleton] at h1
                exact absurd h1 hn
      · intro n hn hn0
        rcases List.mem_append.mp hn with hn1 | hn1
        · obtain ⟨c, hc, hc1, hc2, hc3, hc4⟩ := hclone n hn1 hn0
          have hnne : n ≠ node := fun h => hnode_not_proc (h ▸ hn1)
          refine ⟨c, by rw [hmlook' n hnne]; exact hc, hc1,
            by rw [harlen]; omega, ?_, ?_⟩
          · rw [getNode_append_lt hc2, hc3]
          · rw [getNode_append_lt hc2]
            rw [← hc4]
            refine (mapM_option_congr ?_).symm
            intro i hi
            have hisome := mapM_option_mem_isSome hc4 i hi
            have hine : i ≠ node := by
              intro h
              rw [h, hmn] at hisome
              simp at hisome
            rw [hmlook' i hine]
        · rw [List.mem_singleton] at hn1
          rw [hn1]
          refine ⟨List.length ar, hmlook_node, ?_, ?_, ?_, ?_⟩
          · obtain ⟨ext, hexteq⟩ := hext
            show List.length a ≤ List.length ar
            rw [hexteq, List.length_append]
            omega
          · show List.length ar < (ar ++ [cl]).length
            rw [List.length_append]
            simp
          · have hgets : getNode (ar ++ [cl]) (List.length ar) = cl :=
              getNode_append_self
            rw [hgets]
            exact name_clone_from_inputs hname_node
          · have hgets : getNode (ar ++ [cl]) (List.length ar) = cl :=
              getNode_append_self
            rw [hgets, hcl_inputs, ← hni]
            refine mapM_option_congr ?_
            intro i hi
            have hisome := hinp_some i hi
            have hine : i ≠ node := by
              intro h
              rw [h, hmn] at hisome
              simp at hisome
            exact hmlook' i hine
      · intro p hp
        obtain ⟨m2, hrun, hrest⟩ := hp
        refine ⟨m2, hrun, ?_⟩
        rw [List.append_assoc, List.singleton_append] at hrest
        exact hrest
    · -- node already in the memo: skip it
      have hsome : (mlook m node).isSome := by rw [hmn]; rfl
      have hmemo0_some : (mlook memo0 node).isSome := by
        rcases (hdom node).mp hsome with h | h
        · exact h
        · exact absurd h hnode_not_proc
      refine ih (processed ++ [node]) ar m hfull' hext ?_ hm0 ?_ ?_ |>.imp ?_
      · have hfalse : (mlook memo0 node).isNone = false := by
          rcases Option.isSome_iff_exists.mp hmemo0_some with ⟨v, hv⟩
          rw [hv]; rfl
        have h0 : List.filter (fun n => (mlook memo0 n).isNone) [node] = [] := by
          simp [List.filter_cons, hfalse]
        rw [List.filter_append, h0, List.append_nil]
        exact hcount
      · intro n
        rw [hdom n]
        constructor
        · rintro (h | h)
          · exact Or.inl h
          · exact Or.inr (List.mem_append_left _ h)
        · rintro (h | h)
          · exact Or.inl h
          · rcases List.mem_append.mp h with h1 | h1
            · exact Or.inr h1
            · rw [List.mem_singleton] at h1
              subst h1
              exact Or.inl hmemo0_some
      · intro n hn hn0
        rcases List.mem_append.mp hn with hn1 | hn1
        · exact hclone n hn1 hn0
        · rw [List.mem_singleton] at hn1
          subst hn1
          rcases Option.isSome_iff_exists.mp hmemo0_some with ⟨v, hv⟩
          rw [hv] at hn0
          exact Option.noConfusion hn0
      · intro p hp
        obtain ⟨m2, hrun, hrest⟩ := hp
        refine ⟨m2, hrun, ?_⟩
        rw [List.append_assoc, List.singleton_append] at hrest
        exact hrest

/-- Claim C5: `clone(root, substitutions)` creates exactly one fresh node
for every node of `reachable(root)` not covered by the substitution map,
maps every covered node to its substitute, and preserves sharing: the
final memo assigns to each reachable node a single target, and each
clone's input list is exactly the memo image of the original's input
list, so two consumers of one shared node reference the same single
clone. -/
theorem claim_C5_clone_sharing (a : Arena) (expr : Nat)
    (memo0 : List (Nat × Nat)) (hwf : WfArena a) (hlit : LitOk a)
    (hexpr : expr < asize a) :
    ∃ ar m r, clone a expr memo0 = some (ar, m, r) ∧
      asize ar = asize a +
        ((dfs a expr).filter (fun n => (mlook memo0 n).isNone)).length ∧
      (∀ k v, mlook memo0 k = some v → mlook m k = some v) ∧
      (∀ n ∈ dfs a expr, mlook memo0 n = none →
        ∃ c, mlook m n = some c ∧ asize a ≤ c ∧ c < asize ar ∧
          (getNode ar c).name = (getNode a n).name ∧
          (inputsOf (getNode a n)).mapM (mlook m) =
            some (inputsOf (getNode ar c))) ∧
      mlook m expr = some r := by
  obtain ⟨hnd, hroot, hclosed, hcons⟩ := dfs_props a expr
  have hib : ∀ p n s, dfs a expr = p ++ n :: s →
      ∀ i ∈ inputsOf (getNode a n), i ∈ p :=
    fun p n s hsplit => inputsBefore_split (dfs_inputsBefore a expr hwf) hsplit
  have hval : ∀ n ∈ dfs a expr, n < asize a := dfs_lt_asize a expr hwf hexpr
  obtain ⟨ar2, m2, hrun, hext2, hcount2, hm02, hdom2, hclone2⟩ :=
    cloneFold_inv a memo0 hlit (dfs a expr) hnd hib hval (dfs a expr) [] a memo0
      rfl ⟨[], (List.append_nil a).symm⟩ (by simp)
      (fun k v hk => hk) (fun n => by simp)
      (by intro n hn; simp at hn)
  rw [List.nil_append] at hcount2 hdom2 hclone2
  have hexpr_some : (mlook m2 expr).isSome :=
    (hdom2 expr).mpr (Or.inr hroot)
  obtain ⟨r, hr⟩ := Option.isSome_iff_exists.mp hexpr_some
  refine ⟨ar2, m2, r, ?_, hcount2, hm02, hclone2, hr⟩
  simp [clone, hrun, hr]

/-- Witness for claim C5 at the concrete shared-subexpression graph
`exArena`. -/
theorem claim_C5_clone_sharing_witness :
    WfArena exArena ∧ LitOk exArena ∧ 3 < asize exArena ∧
    (∃ ar m r, clone exArena 3 [] = some (ar, m, r) ∧
      asize ar = asize exArena +
        ((dfs exArena 3).filter (fun n => (mlook [] n).isNone)).length ∧
      (∀ k v, mlook [] k = some v → mlook m k = some v) ∧
      (∀ n ∈ dfs exArena 3, mlook [] n = none →
        ∃ c, mlook m n = some c ∧ asize exArena ≤ c ∧ c < asize ar ∧
          (getNode ar c).name = (getNode exArena n).name ∧
          (inputsOf (getNode exArena n)).mapM (mlook m) =
            some (inputsOf (getNode ar c))) ∧
      mlook m 3 = some r) :=
  ⟨by decide, by decide, by decide,
    claim_C5_clone_sharing exArena 3 [] (by decide) (by decide) (by decide)⟩

/-!
## `clone_merge` (base.py lines 833-867)

Like `clone`, but a pure node may be replaced by an earlier node of the
scan.  The scan condition compares the *original* nodes: equal operation
names and, for literals, `merge_literals` plus equal wrapped values, and
otherwise equal original `(pos_args, named_args)` (element identity).
Note `new_ii = node_jj` (line 860): the duplicate is mapped to the
earlier *original* node itself, not to that node's clone.
-/

/-- Right-split of a list extended by one element. -/
theorem append_singleton_split {α : Type} {xs p s : List α} {x n : α}
    (h : xs ++ [x] = p ++ n :: s) :
    (∃ s0, xs = p ++ n :: s0 ∧ s = s0 ++ [x]) ∨ (p = xs ∧ n = x ∧ s = []) := by
  rcases List.eq_nil_or_concat s with rfl | ⟨s0, y, rfl⟩
  · obtain ⟨h1, h2⟩ := List.append_inj' h rfl
    right
    exact ⟨h1.symm, (List.singleton_injective h2).symm, rfl⟩
  · rw [List.concat_eq_append,
      show n :: (s0 ++ [y]) = (n :: s0) ++ [y] from rfl,
      ← List.append_assoc] at h
    obtain ⟨h1, h2⟩ := List.append_inj' h rfl
    left
    refine ⟨s0, h1, ?_⟩
    rw [List.concat_eq_append, List.singleton_injective h2]

/-- Loop invariant of `clone_merge`: every processed node not covered by
the incoming memo is mapped either to the first matching earlier
*original* node (when the scan finds one) or to a fresh clone built from
the memo images of its inputs; impure nodes always take the clone
branch. -/
theorem cloneMergeFold_inv (a : Arena) (memo0 : List (Nat × Nat))
    (ml : Bool) (hlit : LitOk a) (full : List Nat) (hnd : full.Nodup)
    (hib : ∀ p n s, full = p ++ n :: s → ∀ i ∈ inputsOf (getNode a n), i ∈ p)
    (hval : ∀ n ∈ full, n < asize a) :
    ∀ rest processed ar m,
      processed ++ rest = full →
      (∃ ext, ar = a ++ ext) →
      (∀ k v, mlook memo0 k = some v → mlook m k = some v) →
      (∀ n, (mlook m n).isSome ↔ ((mlook memo0 n).isSome ∨ n ∈ processed)) →
      (∀ p n s, processed = p ++ n :: s → mlook memo0 n = none →
        ((∃ j, mergeFind a ml p n = some j ∧ mlook m n = some j ∧ j ∈ p) ∨
          (mergeFind a ml p n = none ∧ ∃ c, mlook m n = some c ∧
            asize a ≤ c ∧ c < asize ar ∧
            (getNode ar c).name = (getNode a n).name ∧
            (inputsOf (getNode a n)).mapM (mlook m) =
              some (inputsOf (getNode ar c))))) →
      ∃ ar2 m2, cloneMergeFold a ml rest processed (ar, m) = some (ar2, m2) ∧
        (∃ ext, ar2 = a ++ ext) ∧
        (∀ k v, mlook memo0 k = some v → mlook m2 k = some v) ∧
        (∀ n, (mlook m2 n).isSome ↔
          ((mlook memo0 n).isSome ∨ n ∈ processed ++ rest)) ∧
        (∀ p n s, processed ++ rest = p ++ n :: s → mlook memo0 n = none →
          ((∃ j, mergeFind a ml p n = some j ∧ mlook m2 n = some j ∧ j ∈ p) ∨
            (mergeFind a ml p n = none ∧ ∃ c, mlook m2 n = some c ∧
              asize a ≤ c ∧ c < asize ar2 ∧
              (getNode ar2 c).name = (getNode a n).name ∧
              (inputsOf (getNode a n)).mapM (mlook m2) =
                some (inputsOf (getNode ar2 c))))) := by
  intro rest
  induction rest with
  | nil =>
    intro processed ar m hfull hext hm0 hdom hchar
    rw [cloneMergeFold]
    refine ⟨ar, m, rfl, hext, hm0, ?_, ?_⟩
    · intro n; rw [List.append_nil]; exact hdom n
    · intro p n s hsplit
      rw [List.append_nil] at hsplit
      exact hchar p n s hsplit
  | cons node rest' ih =>
    intro processed ar m hfull hext hm0 hdom hchar
    have hnode_not_proc : node ∉ processed := by
      intro hmem
      have hdisj : processed.Disjoint (node :: rest') := by
        rw [← hfull] at hnd
        exact List.disjoint_of_nodup_append hnd
      exact hdisj hmem (List.mem_cons_self _ _)
    have hfull' : (processed ++ [node]) ++ rest' = full := by
      rw [List.append_assoc, List.singleton_append]; exact hfull
    rw [cloneMergeFold]
    by_cases hsome : (mlook m node).isSome
    · -- node covered by the incoming memo: skip
      rw [if_pos hsome]
      have hmemo0_some : (mlook memo0 node).isSome := by
        rcases (hdom node).mp hsome with h | h
        · exact h
        · exact absurd h hnode_not_proc
      refine ih (processed ++ [node]) ar m hfull' hext hm0 ?_ ?_ |>.imp ?_
      · intro n
        rw [hdom n]
        constructor
        · rintro (h | h)
          · exact Or.inl h
          · exact Or.inr (List.mem_append_left _ h)
        · rintro (h | h)
          · exact Or.inl h
          · rcases List.mem_append.mp h with h1 | h1
            · exact Or.inr h1
            · rw [List.mem_singleton] at h1
              subst h1
              exact Or.inl hmemo0_some
      · intro p n s hsplit hn0
        rcases append_singleton_split hsplit with ⟨s0, hs1, -⟩ | ⟨hp, hn, -⟩
        · exact hchar p n s0 hs1 hn0
        · exfalso
          rw [hn] at hn0
          rcases Option.isSome_iff_exists.mp hmemo0_some with ⟨v, hv⟩
          rw [hv] at hn0
          exact Option.noConfusion hn0
      · intro q hq
        obtain ⟨m2, hrun, hrest⟩ := hq
        refine ⟨m2, hrun, ?_⟩
        rw [List.append_assoc, List.singleton_append] at hrest
        exact hrest
    · rw [if_neg hsome]
      have hmemo0 : mlook memo0 node = none := by
        rcases h0 : mlook memo0 node with _ | v
        · rfl
        · exact absurd ((hdom node).mpr (Or.inl (by rw [h0]; rfl)))
            hsome
      have hmn : mlook m node = none := by
        rcases h0 : mlook m node with _ | v
        · rfl
        · exact absurd (by rw [h0]; rfl) hsome
      have hmlook_pres : ∀ (j : Nat) (x : Nat), x ≠ node →
          mlook ((node, j) :: m) x = mlook m x :=
        fun j x hx => mlook_cons_ne (fun h => hx h.symm)
      rcases hfind : mergeFind a ml processed node with _ | j
      · -- no merge target: clone the node
        have hinp_some : ∀ i ∈ inputsOf (getNode a node), (mlook m i).isSome := by
          intro i hi
          have hip : i ∈ processed := hib processed node rest' hfull.symm i hi
          exact (hdom i).mpr (Or.inr hip)
        obtain ⟨ni, hni⟩ := mapM_option_isSome (mlook m) _ hinp_some
        rw [hni]
        set cl := clone_from_inputs (getNode a node) ni with hcl
        have hlen : ni.length = (inputsOf (getNode a node)).length :=
          mapM_option_length hni
        have hnode_lt : node < asize a := hval node (by
          rw [← hfull]; exact List.mem_append_right _ (List.mem_cons_self _ _))
        have hmem_a : getNode a node ∈ a := by
          rw [getNode, List.getD_eq_getElem _ _ hnode_lt]
          exact List.getElem_mem hnode_lt
        have hname_node : (getNode a node).isLit = true →
            (getNode a node).name = "literal" :=
          fun h => (hlit _ hmem_a h).2.2
        have hcl_inputs : inputsOf cl = ni :=
          inputsOf_clone_from_inputs hlen
            (fun h => ⟨(hlit _ hmem_a h).1, (hlit _ hmem_a h).2.1⟩)
        have harlen : asize (ar ++ [cl]) = asize ar + 1 := by
          show (ar ++ [cl]).length = ar.length + 1
          simp
        refine ih (processed ++ [node]) (ar ++ [cl])
          ((node, List.length ar) :: m) hfull' ?_ ?_ ?_ ?_ |>.imp ?_
        · obtain ⟨ext, hexteq⟩ := hext
          exact ⟨ext ++ [cl], by rw [hexteq, List.append_assoc]⟩
        · intro k v hk
          have hkne : k ≠ node := by
            intro h
            rw [h, hmemo0] at hk
            exact Option.noConfusion hk
          rw [hmlook_pres _ k hkne]
          exact hm0 k v hk
        · intro n
          by_cases hn : n = node
          · subst hn
            rw [mlook_cons_self]
            simp only [Option.isSome_some, true_iff]
            exact Or.inr (List.mem_append_right _ (List.mem_singleton_self _))
          · rw [hmlook_pres _ n hn, hdom n]
            constructor
            · rintro (h | h)
              · exact Or.inl h
              · exact Or.inr (List.mem_append_left _ h)
            · rintro (h | h)
              · exact Or.inl h
              · rcases List.mem_append.mp h with h1 | h1
                · exact Or.inr h1
                · rw [List.mem_singleton] at h1
                  exact absurd h1 hn
        · intro p n s hsplit hn0
          rcases append_singleton_split hsplit with ⟨s0, hs1, -⟩ | ⟨hp, hn, -⟩
          · -- a previously processed node keeps its characterisation
            have hnproc : n ∈ processed := by
              rw [hs1]
              exact List.mem_append_right _ (List.mem_cons_self _ _)
            have hnne : n ≠ node := fun h => hnode_not_proc (h ▸ hnproc)
            rcases hchar p n s0 hs1 hn0 with ⟨j', hj1, hj2, hj3⟩ | ⟨hnone, c, hc, hc1, hc2, hc3, hc4⟩
            · exact Or.inl ⟨j', hj1, by rw [hmlook_pres _ n hnne]; exact hj2, hj3⟩
            · refine Or.inr ⟨hnone, c, by rw [hmlook_pres _ n hnne]; exact hc,
                hc1, by rw [harlen]; omega, ?_, ?_⟩
              · rw [getNode_append_lt hc2, hc3]
              · rw [getNode_append_lt hc2, ← hc4]
                refine (mapM_option_congr ?_).symm
                intro i hi
                have hisome := mapM_option_mem_isSome hc4 i hi
                have hine : i ≠ node := by
                  intro h
                  rw [h, hmn] at hisome
                  simp at hisome
                rw [hmlook_pres _ i hine]
          · -- the newly cloned node
            rw [hp, hn]
            refine Or.inr ⟨hfind, List.length ar, mlook_cons_self, ?_, ?_, ?_, ?_⟩
            · obtain ⟨ext, hexteq⟩ := hext
              show List.length a ≤ List.length ar
              rw [hexteq, List.length_append]
              omega
            · show List.length ar < (ar ++ [cl]).length
              rw [List.length_append]
              simp
            · have hgets : getNode (ar ++ [cl]) (List.length ar) = cl :=
                getNode_append_self
              rw [hgets]
              exact name_clone_from_inputs hname_node
            · have hgets : getNode (ar ++ [cl]) (List.length ar) = cl :=
                getNode_append_self
              rw [hgets, hcl_inputs, ← hni]
              refine mapM_option_congr ?_
              intro i hi
              have hisome := hinp_some i hi
              have hine : i ≠ node := by
                intro h
                rw [h, hmn] at hisome
                simp at hisome
              exact hmlook_pres _ i hine
        · intro q hq
          obtain ⟨m2, hrun, hrest⟩ := hq
          refine ⟨m2, hrun, ?_⟩
          rw [List.append_assoc, List.singleton_append] at hrest
          exact hrest
      · -- merge with the earlier original node `j`
        refine ih (processed ++ [node]) ar ((node, j) :: m) hfull' hext ?_ ?_ ?_ |>.imp ?_
        · intro k v hk
          have hkne : k ≠ node := by
            intro h
            rw [h, hmemo0] at hk
            exact Option.noConfusion hk
          rw [hmlook_pres _ k hkne]
          exact hm0 k v hk
        · intro n
          by_cases hn : n = node
          · subst hn
            rw [mlook_cons_self]
            simp only [Option.isSome_some, true_iff]
            exact Or.inr (List.mem_append_right _ (List.mem_singleton_self _))
          · rw [hmlook_pres _ n hn, hdom n]
            constructor
            · rintro (h | h)
              · exact Or.inl h
              · exact Or.inr (List.mem_append_left _ h)
            · rintro (h | h)
              · exact Or.inl h
              · rcases List.mem_append.mp h with h1 | h1
                · exact Or.inr h1
                · rw [List.mem_singleton] at h1
                  exact absurd h1 hn
        · intro p n s hsplit hn0
          rcases append_singleton_split hsplit with ⟨s0, hs1, -⟩ | ⟨hp, hn, -⟩
          · have hnproc : n ∈ processed := by
              rw [hs1]
              exact List.mem_append_right _ (List.mem_cons_self _ _)
            have hnne : n ≠ node := fun h => hnode_not_proc (h ▸ hnproc)
            rcases hchar p n s0 hs1 hn0 with ⟨j', hj1, hj2, hj3⟩ | ⟨hnone, c, hc, hc1, hc2, hc3, hc4⟩
            · exact Or.inl ⟨j', hj1, by rw [hmlook_pres _ n hnne]; exact hj2, hj3⟩
            · refine Or.inr ⟨hnone, c, by rw [hmlook_pres _ n hnne]; exact hc,
                hc1, hc2, hc3, ?_⟩
              rw [← hc4]
              refine (mapM_option_congr ?_).symm
              intro i hi
              have hisome := mapM_option_mem_isSome hc4 i hi
              have hine : i ≠ node := by
                intro h
                rw [h, hmn] at hisome
                simp at hisome
              rw [hmlook_pres _ i hine]
          · rw [hp, hn]
            exact Or.inl ⟨j, hfind, mlook_cons_self,
              List.mem_of_find?_eq_some (by
                rw [mergeFind] at hfind
                by_cases hp' : (getNode a node).pureN
                · rw [if_pos hp'] at hfind
                  exact hfind
                · rw [if_neg hp'] at hfind
                  exact Option.noConfusion hfind)⟩
        · intro q hq
          obtain ⟨m2, hrun, hrest⟩ := hq
          refine ⟨m2, hrun, ?_⟩
          rw [List.append_assoc, List.singleton_append] at hrest
          exact hrest

/-- Claim C2 (amended): `clone_merge` maps each reachable node not covered
by the incoming memo as follows: a *pure* node whose scan over the
already-processed prefix finds an earlier node with the same operation
name and — for literals, `merge_literals` enabled and equal wrapped
values; otherwise identical original positional/keyword input identities —
is mapped to that earlier *original* node itself (an id of the input
graph, not of a clone); any other node, in particular every impure node,
gets a fresh clone built from the memo images of its inputs. -/
theorem claim_C2_clone_merge_amended (a : Arena) (expr : Nat)
    (memo0 : List (Nat × Nat)) (ml : Bool) (hwf : WfArena a)
    (hlit : LitOk a) (hexpr : expr < asize a) :
    ∃ ar m r, clone_merge a expr memo0 ml = some (ar, m, r) ∧
      (∀ p n s, dfs a expr = p ++ n :: s → mlook memo0 n = none →
        ((∃ j, mergeFind a ml p n = some j ∧ mlook m n = some j ∧
          j ∈ p ∧ j < asize a) ∨
          (mergeFind a ml p n = none ∧ ∃ c, mlook m n = some c ∧
            asize a ≤ c ∧ c < asize ar ∧
            (getNode ar c).name = (getNode a n).name ∧
            (inputsOf (getNode a n)).mapM (mlook m) =
              some (inputsOf (getNode ar c))))) ∧
      (∀ p n s, dfs a expr = p ++ n :: s → mlook memo0 n = none →
        (getNode a n).pureN = false →
        ∃ c, mlook m n = some c ∧ asize a ≤ c) ∧
      mlook m expr = some r := by
  obtain ⟨hnd, hroot, hclosed, hcons⟩ := dfs_props a expr
  have hib : ∀ p n s, dfs a expr = p ++ n :: s →
      ∀ i ∈ inputsOf (getNode a n), i ∈ p :=
    fun p n s hsplit => inputsBefore_split (dfs_inputsBefore a expr hwf) hsplit
  have hval : ∀ n ∈ dfs a expr, n < asize a := dfs_lt_asize a expr hwf hexpr
  obtain ⟨ar2, m2, hrun, hext2, hm02, hdom2, hchar2⟩ :=
    cloneMergeFold_inv a memo0 ml hlit (dfs a expr) hnd hib hval
      (dfs a expr) [] a memo0 rfl ⟨[], (List.append_nil a).symm⟩
      (fun k v hk => hk) (fun n => by simp)
      (by intro p n s hsplit _; exact absurd hsplit (by simp))
  rw [List.nil_append] at hdom2 hchar2
  have hexpr_some : (mlook m2 expr).isSome :=
    (hdom2 expr).mpr (Or.inr hroot)
  obtain ⟨r, hr⟩ := Option.isSome_iff_exists.mp hexpr_some
  have hchar3 : ∀ p n s, dfs a expr = p ++ n :: s → mlook memo0 n = none →
      ((∃ j, mergeFind a ml p n = some j ∧ mlook m2 n = some j ∧
        j ∈ p ∧ j < asize a) ∨
        (mergeFind a ml p n = none ∧ ∃ c, mlook m2 n = some c ∧
          asize a ≤ c ∧ c < asize ar2 ∧
          (getNode ar2 c).name = (getNode a n).name ∧
          (inputsOf (getNode a n)).mapM (mlook m2) =
            some (inputsOf (getNode ar2 c)))) := by
    intro p n s hsplit hn0
    rcases hchar2 p n s hsplit hn0 with ⟨j, hj1, hj2, hj3⟩ | h
    · refine Or.inl ⟨j, hj1, hj2, hj3, hval j ?_⟩
      rw [hsplit]
      exact List.mem_append_left _ hj3
    · exact Or.inr h
  refine ⟨ar2, m2, r, ?_, hchar3, ?_, hr⟩
  · simp [clone_merge, hrun, hr]
  · intro p n s hsplit hn0 himp
    rcases hchar3 p n s hsplit hn0 with ⟨j, hj1, -⟩ | ⟨-, c, hc, hc1, -⟩
    · rw [mergeFind, himp] at hj1
      simp at hj1
    · exact ⟨c, hc, hc1⟩

/-- Counterexample for claim C2 at `exArena`: the duplicate pure node
`add(lit5, lit5)` (node 2) is mapped to the earlier *original* node 1 —
an id of the input graph (`1 < asize exArena`) — while the first copy
maps to the fresh clone 5, so the cloned root references two *different*
nodes `[5, 1]` instead of one shared clone. -/
theorem claim_C2_counterexample :
    (clone_merge exArena 3 [] false).map
        (fun q => (q.2.1, (getNode q.1 q.2.2).pos_args)) =
      some ([(3, 6), (2, 1), (1, 5), (0, 4)], [5, 1]) ∧
    (1 : Nat) < asize exArena ∧ (5 : Nat) ≠ 1 := by
  refine ⟨?_, by decide, by decide⟩
  rfl

/-- Witness for the amended claim C2 at `exArena`. -/
theorem claim_C2_clone_merge_amended_witness :
    WfArena exArena ∧ LitOk exArena ∧ 3 < asize exArena ∧
    (∃ ar m r, clone_merge exArena 3 [] false = some (ar, m, r) ∧
      (∀ p n s, dfs exArena 3 = p ++ n :: s → mlook [] n = none →
        ((∃ j, mergeFind exArena false p n = some j ∧ mlook m n = some j ∧
          j ∈ p ∧ j < asize exArena) ∨
          (mergeFind exArena false p n = none ∧ ∃ c, mlook m n = some c ∧
            asize exArena ≤ c ∧ c < asize ar ∧
            (getNode ar c).name = (getNode exArena n).name ∧
            (inputsOf (getNode exArena n)).mapM (mlook m) =
              some (inputsOf (getNode ar c))))) ∧
      (∀ p n s, dfs exArena 3 = p ++ n :: s → mlook [] n = none →
        (getNode exArena n).pureN = false →
        ∃ c, mlook m n = some c ∧ asize exArena ≤ c) ∧
      mlook m 3 = some r) :=
  ⟨by decide, by decide, by decide,
    claim_C2_clone_merge_amended exArena 3 [] false (by decide) (by decide)
      (by decide)⟩

/-!
## `toposort` (base.py lines 806-818)

`toposort(expr)` builds a directed graph with an edge `(input, node)` for
every reachable node and input, calls `networkx.topological_sort` — which
returns a linearization of the graph's nodes or raises
`NetworkXUnfeasible` when none exists — and asserts `order[-1] == expr`.
`topological_sort` is modelled by Kahn's algorithm, which returns *a*
valid linearization exactly when one exists (the properties proved below
are order-independent, so any valid linearization is a faithful model of
the library call).  Note `add_edges_from` never registers an isolated
node: a root without inputs yields an empty graph, an empty order, and an
`IndexError` from `order[-1]`.
-/

/-- Unfolding of `isSource`. -/
theorem isSource_spec {edges : List (Nat × Nat)} {rem : List Nat} {v : Nat} :
    isSource edges rem v = true ↔ ∀ e ∈ edges, e.2 = v → e.1 ∉ rem := by
  rw [isSource, Bool.not_eq_true', List.any_eq_false]
  constructor
  · intro h e he hv hw
    refine h e he ?_
    rw [Bool.and_eq_true, beq_iff_eq]
    exact ⟨hv, List.elem_iff.mpr hw⟩
  · intro h e he hc
    rw [Bool.and_eq_true, beq_iff_eq] at hc
    exact h e he hc.1 (List.elem_iff.mp hc.2)

/-- Splitting a filtered list at an element splits the original list. -/
theorem filter_eq_append_cons {α : Type} {q : α → Bool} :
    ∀ {L p s : List α} {u : α}, L.filter q = p ++ u :: s →
      ∃ p1 s1, L = p1 ++ u :: s1 ∧ p1.filter q = p ∧ s1.filter q = s := by
  intro L
  induction L with
  | nil =>
    intro p s u h
    rw [List.filter_nil] at h
    exact absurd h.symm (List.append_ne_nil_of_right_ne_nil _ (by simp))
  | cons a L2 ihL =>
    intro p s u h
    rw [List.filter_cons] at h
    by_cases hq : q a
    · rw [if_pos hq] at h
      cases p with
      | nil =>
        rw [List.nil_append] at h
        injection h with h1 h2
        exact ⟨[], L2, by rw [h1]; rfl, rfl, h2⟩
      | cons p0 ps =>
        injection h with h1 h2
        rw [show ps.append (u :: s) = ps ++ u :: s from rfl] at h2
        obtain ⟨p1, s1, hL, hp, hs⟩ := ihL h2
        refine ⟨a :: p1, s1, by rw [hL]; rfl, ?_, hs⟩
        rw [List.filter_cons, if_pos hq, hp, h1]
    · rw [if_neg hq] at h
      obtain ⟨p1, s1, hL, hp, hs⟩ := ihL h
      refine ⟨a :: p1, s1, by rw [hL]; rfl, ?_, hs⟩
      rw [List.filter_cons, if_neg hq, hp]

/-- `EdgesAfter` survives removing one element from a duplicate-free
sequence. -/
theorem edgesAfter_erase {edges : List (Nat × Nat)} {L : List Nat} {x : Nat}
    (hnd : L.Nodup) (hEA : EdgesAfter edges L) :
    EdgesAfter edges (L.erase x) := by
  intro p u s hsplit v hv hvmem
  rw [hnd.erase_eq_filter] at hsplit hvmem
  obtain ⟨p1, s1, hL, hp, hs⟩ := filter_eq_append_cons hsplit
  have hv1 : v ∈ s1 := by
    refine hEA p1 u s1 hL v hv ?_
    · exact List.mem_of_mem_filter hvmem
  rw [← hs]
  rw [List.mem_filter] at hvmem ⊢
  exact ⟨hv1, hvmem.2⟩

/-- The head of a linearization is a source of any permutation of it. -/
theorem head_isSource {edges : List (Nat × Nat)} {L L2 rem : List Nat}
    {x : Nat} (hperm : L.Perm rem) (hnd : L.Nodup)
    (hEA : EdgesAfter edges L) (hL : L = x :: L2) :
    isSource edges rem x = true := by
  rw [isSource_spec]
  intro e he hv hw
  have hwL : e.1 ∈ L := hperm.symm.subset hw
  obtain ⟨p, s, hps⟩ := List.append_of_mem hwL
  have hxs : x ∈ s := by
    refine hEA p e.1 s hps x ?_ ?_
    · rw [← hv]
      exact he
    · rw [hL]; exact List.mem_cons_self _ _
  have hxL2 : x ∈ L2 := by
    cases p with
    | nil =>
      rw [hL, List.nil_append] at hps
      injection hps with h1 h2
      rw [h2]; exact hxs
    | cons p0 ps =>
      rw [hL] at hps
      injection hps with h1 h2
      rw [h2]
      exact List.mem_append_right _ (List.mem_cons_of_mem _ hxs)
  rw [hL] at hnd
  exact (List.nodup_cons.mp hnd).1 hxL2

/-- Soundness of the Kahn loop: a returned order is a permutation of the
remaining nodes respecting the edges. -/
theorem kahnAux_sound (edges : List (Nat × Nat)) :
    ∀ fuel rem order, rem.Nodup → kahnAux edges fuel rem = some order →
      order.Perm rem ∧ EdgesAfter edges order := by
  intro fuel
  induction fuel with
  | zero =>
    intro rem order hnd h
    rw [kahnAux] at h
    by_cases he : rem.isEmpty
    · rw [if_pos he] at h
      injection h with h1
      rw [← h1, List.isEmpty_iff.mp he]
      exact ⟨List.Perm.refl _, by intro p u s hp; simp at hp⟩
    · rw [if_neg he] at h
      exact Option.noConfusion h
  | succ f ihf =>
    intro rem order hnd h
    rw [kahnAux] at h
    split at h
    · split at h
      · rename_i he
        injection h with h1
        rw [← h1, List.isEmpty_iff.mp he]
        exact ⟨List.Perm.refl _, by intro p u s hp; simp at hp⟩
      · exact Option.noConfusion h
    · rename_i s0 rest hfil
      have hs0 : s0 ∈ rem.filter (isSource edges rem) := by
        rw [hfil]; exact List.mem_cons_self _ _
      rw [List.mem_filter] at hs0
      obtain ⟨hs0rem, hs0src⟩ := hs0
      split at h
      · exact Option.noConfusion h
      · rename_i order' hrec
        injection h with h1
        obtain ⟨hperm', hEA'⟩ := ihf (rem.erase s0) order' (hnd.erase s0) hrec
        have hperm : order.Perm rem := by
          rw [← h1]
          exact (hperm'.cons s0).trans (List.perm_cons_erase hs0rem).symm
        refine ⟨hperm, ?_⟩
        intro p u s hsplit v hv hvmem
        have hvrem : v ∈ rem := hperm.subset hvmem
        rw [← h1] at hsplit
        cases p with
        | nil =>
          rw [List.nil_append] at hsplit
          injection hsplit with h2 h3
          have hvne : v ≠ s0 := by
            intro hc
            rw [isSource_spec] at hs0src
            exact hs0src (u, v) hv (by rw [hc, h2]) (h2 ▸ hs0rem)
          have hv2 : v ∈ rem.erase s0 := (hnd.mem_erase_iff).mpr ⟨hvne, hvrem⟩
          rw [← h3]
          exact hperm'.symm.subset hv2
        | cons p0 ps =>
          injection hsplit with h2 h3
          have hvne : v ≠ s0 := by
            intro hc
            rw [isSource_spec] at hs0src
            refine hs0src (u, v) hv (by rw [hc]) ?_
            have humem : u ∈ order' := by
              rw [h3]
              exact List.mem_append_right _ (List.mem_cons_self _ _)
            exact List.mem_of_mem_erase (hperm'.subset humem)
          have hvord : v ∈ order' :=
            hperm'.symm.subset ((hnd.mem_erase_iff).mpr ⟨hvne, hvrem⟩)
          exact hEA' ps u s h3 v hv hvord

/-- Completeness of the Kahn loop: whenever a linearization of the
remaining nodes exists (and the fuel covers them), the loop succeeds. -/
theorem kahnAux_complete (edges : List (Nat × Nat)) :
    ∀ fuel rem, rem.Nodup → rem.length ≤ fuel →
      (∃ L, L.Perm rem ∧ EdgesAfter edges L) →
      (kahnAux edges fuel rem).isSome := by
  intro fuel
  induction fuel with
  | zero =>
    intro rem hnd hlen _
    have : rem = [] := List.length_eq_zero.mp (Nat.le_zero.mp hlen)
    rw [kahnAux, this]
    rfl
  | succ f ihf =>
    intro rem hnd hlen hlin
    obtain ⟨L, hperm, hEA⟩ := hlin
    rw [kahnAux]
    rcases hfil : rem.filter (isSource edges rem) with _ | ⟨s0, rest⟩
    · by_cases he : rem.isEmpty
      · rw [if_pos he]; rfl
      · exfalso
        have hrnil : rem ≠ [] := by
          intro hc
          rw [hc] at he
          exact he rfl
        have hLnil : L ≠ [] := by
          intro hc
          rw [hc] at hperm
          exact hrnil (List.Perm.nil_eq hperm).symm
        obtain ⟨x, L2, hL⟩ := List.exists_cons_of_ne_nil hLnil
        have hx : isSource edges rem x = true :=
          head_isSource hperm (hperm.nodup_iff.mpr hnd) hEA hL
        have hxrem : x ∈ rem := hperm.subset (by rw [hL]; exact List.mem_cons_self _ _)
        have : x ∈ rem.filter (isSource edges rem) :=
          List.mem_filter.mpr ⟨hxrem, hx⟩
        rw [hfil] at this
        simp at this
    · have hs0 : s0 ∈ rem.filter (isSource edges rem) := by
        rw [hfil]; exact List.mem_cons_self _ _
      rw [List.mem_filter] at hs0
      obtain ⟨hs0rem, -⟩ := hs0
      have hlen' : (rem.erase s0).length ≤ f := by
        rw [List.length_erase_of_mem hs0rem]
        have := List.length_pos.mpr (List.ne_nil_of_mem hs0rem)
        omega
      have hnd' : (rem.erase s0).Nodup := hnd.erase s0
      have hlin' : ∃ L2, L2.Perm (rem.erase s0) ∧ EdgesAfter edges L2 :=
        ⟨L.erase s0, hperm.erase s0,
          edgesAfter_erase (hperm.nodup_iff.mpr hnd) hEA⟩
      have := ihf (rem.erase s0) hnd' hlen' hlin'
      rcases hrec : kahnAux edges f (rem.erase s0) with _ | order'
      · rw [hrec] at this
        exact absurd this (by simp)
      · have hred : (match kahnAux edges f (rem.erase s0) with
            | none => (none : Option (List Nat))
            | some order => some (s0 :: order)).isSome = true := by
          rw [hrec]
          rfl
        exact hred

/-- Characterisation of the built edges. -/
theorem mem_graphEdges {a : Arena} {root : Nat} {i m : Nat} :
    (i, m) ∈ graphEdges a root ↔
      m ∈ dfs a root ∧ i ∈ inputsOf (getNode a m) := by
  rw [graphEdges, List.mem_flatMap]
  constructor
  · rintro ⟨n, hn, hmem⟩
    rw [List.mem_map] at hmem
    obtain ⟨i0, hi0, heq⟩ := hmem
    injection heq with h1 h2
    subst h1; subst h2
    exact ⟨hn, hi0⟩
  · rintro ⟨hm, hi⟩
    exact ⟨m, hm, List.mem_map.mpr ⟨i, hi, rfl⟩⟩

/-- When the root has at least one input, the node set of the built graph
is exactly the set of reachable nodes. -/
theorem mem_graphNodes {a : Arena} {root : Nat}
    (hroot : inputsOf (getNode a root) ≠ []) :
    ∀ n, n ∈ graphNodes (graphEdges a root) ↔ n ∈ dfs a root := by
  obtain ⟨hnd, hrootmem, hclosed, hcons⟩ := dfs_props a root
  intro n
  rw [graphNodes, List.mem_dedup, List.mem_flatMap]
  constructor
  · rintro ⟨⟨u, v⟩, he, hmem⟩
    obtain ⟨hv, hu⟩ := mem_graphEdges.mp he
    simp only [List.mem_cons, List.mem_singleton] at hmem
    rcases hmem with h | h | h
    · subst h
      exact hclosed v hv n hu
    · subst h
      exact hv
    · simp at h
  · intro hn
    rcases hinp : inputsOf (getNode a n) with _ | ⟨i0, irest⟩
    · rcases hcons n hn with h | ⟨m, hm, hnm⟩
      · subst h
        exact absurd hinp hroot
      · exact ⟨(n, m), mem_graphEdges.mpr ⟨hm, hnm⟩, by simp⟩
    · refine ⟨(i0, n), mem_graphEdges.mpr ⟨hn, ?_⟩, by simp⟩
      rw [hinp]
      exact List.mem_cons_self _ _

/-- Every graph node other than the root has an outgoing edge. -/
theorem gnode_outgoing {a : Arena} {root : Nat}
    (hroot : inputsOf (getNode a root) ≠ []) :
    ∀ n ∈ graphNodes (graphEdges a root), n ≠ root →
      ∃ v, (n, v) ∈ graphEdges a root := by
  obtain ⟨-, -, -, hcons⟩ := dfs_props a root
  intro n hn hne
  have hdfs : n ∈ dfs a root := (mem_graphNodes hroot n).mp hn
  rcases hcons n hdfs with h | ⟨m, hm, hnm⟩
  · exact absurd h hne
  · exact ⟨m, mem_graphEdges.mpr ⟨hm, hnm⟩⟩

/-- Claim C3 (amended): for a root with at least one input, `toposort`
succeeds exactly when a linearization of the dependency graph exists
("the reachable graph is acyclic"); the returned order enumerates the
reachable nodes without duplicates, places every node after all of its
inputs, and ends with the root.  When no linearization exists it fails
with the cycle-detection error.  (For a root with no inputs the code
instead raises an `IndexError`; see the counterexample.) -/
theorem claim_C3_toposort_amended (a : Arena) (root : Nat)
    (hroot : inputsOf (getNode a root) ≠ []) :
    (Linearizable (graphEdges a root) (graphNodes (graphEdges a root)) →
      ∃ order, toposort a root = Except.ok order ∧
        (∀ n, n ∈ order ↔ n ∈ dfs a root) ∧ order.Nodup ∧
        (∀ p n s, order = p ++ n :: s →
          ∀ i ∈ inputsOf (getNode a n), i ∈ p) ∧
        order.getLast? = some root) ∧
    (¬ Linearizable (graphEdges a root) (graphNodes (graphEdges a root)) →
      toposort a root = Except.error TopoErr.cycleDetected) := by
  set edges := graphEdges a root with hedges
  set gn := graphNodes (graphEdges a root) with hgn
  have hgnnd : gn.Nodup := List.nodup_dedup _
  constructor
  · intro hlin
    have hsome := kahnAux_complete edges gn.length gn hgnnd (Nat.le_refl _) hlin
    rcases hkahn : kahnAux edges gn.length gn with _ | order
    · rw [hkahn] at hsome
      exact absurd hsome (by simp)
    · obtain ⟨hperm, hEA⟩ := kahnAux_sound edges gn.length gn order hgnnd hkahn
      have hmemo : ∀ n, n ∈ order ↔ n ∈ dfs a root := by
        intro n
        rw [hperm.mem_iff]
        exact mem_graphNodes hroot n
      have hordnd : order.Nodup := hperm.nodup_iff.mpr hgnnd
      have hrootord : root ∈ order := by
        rw [hmemo root]
        exact (dfs_props a root).2.1
      -- the root is the unique sink, so it is last
      have hlastroot : order.getLast? = some root := by
        rcases List.eq_nil_or_concat order with hnil | ⟨q, last, hq⟩
        · rw [hnil] at hrootord
          simp at hrootord
        · rw [List.concat_eq_append] at hq
          have hlast : order.getLast? = some last := by
            rw [hq, List.getLast?_append, List.getLast?_singleton]
            rfl
          by_cases hlr : last = root
          · rw [hlast, hlr]
          · exfalso
            have hlastgn : last ∈ gn := hperm.subset (by
              rw [hq]; exact List.mem_append_right _ (List.mem_singleton_self _))
            obtain ⟨v, hv⟩ := gnode_outgoing hroot last hlastgn hlr
            have hvord : v ∈ order := (hmemo v).mpr (mem_graphEdges.mp hv).1
            have := hEA q last [] hq v hv hvord
            simp at this
        -- ∀-inputs-before property from EdgesAfter and nodup
      have hbefore : ∀ p n s, order = p ++ n :: s →
          ∀ i ∈ inputsOf (getNode a n), i ∈ p := by
        intro p n s hsplit i hi
        have hnord : n ∈ order := by
          rw [hsplit]; exact List.mem_append_right _ (List.mem_cons_self _ _)
        have hedge : (i, n) ∈ edges :=
          mem_graphEdges.mpr ⟨(hmemo n).mp hnord, hi⟩
        have hiord : i ∈ order := by
          rw [hmemo i]
          exact (dfs_props a root).2.2.1 n ((hmemo n).mp hnord) i hi
        have hnnotins : n ∉ s := by
          rw [hsplit] at hordnd
          have := List.disjoint_of_nodup_append hordnd
          intro hc
          have hnp : (n :: s).Nodup :=
            (List.nodup_append.mp hordnd).2.1
          exact (List.nodup_cons.mp hnp).1 hc
        rw [hsplit] at hiord
        rcases List.mem_append.mp hiord with h | h
        · exact h
        · exfalso
          rcases List.mem_cons.mp h with h1 | h1
          · -- i = n: the self edge would force n after itself
            subst h1
            exact hnnotins (hEA p i s hsplit i hedge (by rw [hsplit]; exact hiord))
          · -- i strictly after n: n would also have to be after i
            obtain ⟨s1, s2, hs12⟩ := List.append_of_mem h1
            have hsplit2 : order = (p ++ n :: s1) ++ i :: s2 := by
              rw [hsplit, hs12]
              simp
            have hns2 : n ∈ s2 := hEA (p ++ n :: s1) i s2 hsplit2 n hedge hnord
            exact hnnotins (by rw [hs12]; exact List.mem_append_right _ (List.mem_cons_of_mem _ hns2))
      refine ⟨order, ?_, hmemo, hordnd, hbefore, hlastroot⟩
      have step1 : toposort a root =
          (match order.getLast? with
            | none => Except.error TopoErr.indexError
            | some last => if last = root then Except.ok order
                           else Except.error TopoErr.assertionFailed) := by
        show (match kahnAux edges gn.length gn with
              | none => Except.error TopoErr.cycleDetected
              | some order2 =>
                match order2.getLast? with
                | none => Except.error TopoErr.indexError
                | some last => if last = root then Except.ok order2
                               else Except.error TopoErr.assertionFailed) = _
        rw [hkahn]
      rw [step1, hlastroot]
      show (if root = root then Except.ok order
            else Except.error TopoErr.assertionFailed) = Except.ok order
      rw [if_pos rfl]
  · intro hnlin
    rcases hkahn : kahnAux edges gn.length gn with _ | order
    · show (match kahnAux edges gn.length gn with
            | none => Except.error TopoErr.cycleDetected
            | some order2 =>
              match order2.getLast? with
              | none => Except.error TopoErr.indexError
              | some last => if last = root then Except.ok order2
                             else Except.error TopoErr.assertionFailed) =
          Except.error TopoErr.cycleDetected
      rw [hkahn]
    · exfalso
      obtain ⟨hperm, hEA⟩ := kahnAux_sound edges gn.length gn order hgnnd hkahn
      exact hnlin ⟨order, hperm, hEA⟩

/-- Counterexample for claim C3: on the acyclic single-node graph (a root
with no inputs) `toposort` does not succeed — `add_edges_from` registers
no node, `topological_sort` returns the empty order and `order[-1]`
raises an `IndexError` — contradicting the claim that it succeeds with
the root as last element. -/
theorem claim_C3_counterexample :
    toposort singletonArena 0 = Except.error TopoErr.indexError ∧
    graphEdges singletonArena 0 = [] ∧
    Linearizable (graphEdges singletonArena 0)
      (graphNodes (graphEdges singletonArena 0)) ∧
    WfArena singletonArena := by
  refine ⟨by decide, by decide, ⟨[], by decide, ?_⟩, by decide⟩
  intro p u s hp
  exact absurd hp.symm (List.append_ne_nil_of_right_ne_nil _ (by simp))

/-- Witness for the amended claim C3 at `exArena`. -/
theorem claim_C3_toposort_amended_witness :
    (inputsOf (getNode exArena 3) ≠ []) ∧
    Linearizable (graphEdges exArena 3) (graphNodes (graphEdges exArena 3)) ∧
    (∃ order, toposort exArena 3 = Except.ok order ∧
      (∀ n, n ∈ order ↔ n ∈ dfs exArena 3) ∧ order.Nodup ∧
      (∀ p n s, order = p ++ n :: s →
        ∀ i ∈ inputsOf (getNode exArena n), i ∈ p) ∧
      order.getLast? = some 3) := by
  have hkahn : kahnAux (graphEdges exArena 3)
      (graphNodes (graphEdges exArena 3)).length
      (graphNodes (graphEdges exArena 3)) = some [0, 1, 2, 3] := by decide
  have hsound := kahnAux_sound (graphEdges exArena 3) _ _ _
    (by decide) hkahn
  have hlin : Linearizable (graphEdges exArena 3)
      (graphNodes (graphEdges exArena 3)) :=
    ⟨[0, 1, 2, 3], hsound.1, hsound.2⟩
  exact ⟨by decide, hlin,
    (claim_C3_toposort_amended exArena 3 (by decide)).1 hlin⟩

/-- Claim C4 (code bug): `Nmap` computes the per-index slices `args_nn`
but invokes the implementation on the whole argument vectors
(`f(*args, **kwargs)`, annotate.py line 81).  On the lifted form of
`add(1, 2)` with `N = 2` — `Nmap(2, 'add', [1, 2], [10, 20])` — the code
returns `[[1, 2, 10, 20], [1, 2, 10, 20]]` (Python list concatenation of
the full vectors, repeated), while the element-wise behaviour the
specification requires (`NmapSpec`) returns `[11, 22]`. -/
theorem claim_C4_nmap_code_bug :
    Nmap implsBase 2 "add"
        [PVal.ofIntList [1, 2], PVal.ofIntList [10, 20]] [] =
      some (PVal.ofList [PVal.ofIntList [1, 2, 10, 20],
        PVal.ofIntList [1, 2, 10, 20]]) ∧
    NmapSpec implsBase 2 "add"
        [PVal.ofIntList [1, 2], PVal.ofIntList [10, 20]] [] =
      some (PVal.ofIntList [11, 22]) ∧
    Nmap implsBase 2 "add"
        [PVal.ofIntList [1, 2], PVal.ofIntList [10, 20]] [] ≠
      NmapSpec implsBase 2 "add"
        [PVal.ofIntList [1, 2], PVal.ofIntList [10, 20]] [] := by
  exact ⟨by decide, by decide, by decide⟩

/-- Claim C8 (amended): the label-matching predicate examines only the
first queried key: a query matches exactly when its first key is present
on the node and the node's value satisfies that key's condition
(equality, or membership when the query value is a collection); the
remaining query keys are ignored, a query whose first key is absent never
matches, and an empty query yields no decision (`None`). -/
theorem claim_C8_label_matches_amended :
    ∀ (l : List (String × Nat)) (k : String) (qv : LQVal)
      (rest : List (String × LQVal)),
      (label_matches l ((k, qv) :: rest) = some true ↔
        ∃ lv, lfindNat k l = some lv ∧ lqTest lv qv = true) ∧
      label_matches l ((k, qv) :: rest) = label_matches l [(k, qv)] ∧
      (lfindNat k l = none → label_matches l ((k, qv) :: rest) = some false) ∧
      label_matches l [] = none := by
  intro l k qv rest
  refine ⟨?_, ?_, ?_, rfl⟩
  · rw [label_matches]
    rcases hf : lfindNat k l with _ | lv
    · constructor
      · intro h
        have h2 : (some false : Option Bool) = some true := h
        injection h2 with h1
        exact Bool.noConfusion h1
      · rintro ⟨lv, hlv, -⟩
        exact Option.noConfusion hlv
    · constructor
      · intro h
        have h2 : (some (lqTest lv qv) : Option Bool) = some true := h
        injection h2 with h1
        exact ⟨lv, rfl, h1⟩
      · rintro ⟨lv2, hlv2, ht⟩
        injection hlv2 with h2
        show some (lqTest lv qv) = some true
        rw [h2, ht]
  · rw [label_matches, label_matches]
  · intro hf
    rw [label_matches, hf]

/-- Counterexample for claim C8: on a node with no labels and the
single-key query `{a: 5}` the specification's predicate (every queried
key *present on the node* satisfies its condition — vacuously true here)
reports a match, but `label_matches` returns `False` because its loop
body returns on the first key unconditionally (base.py lines 624-632). -/
theorem claim_C8_counterexample :
    labelMatchesSpec [] [("a", LQVal.single 5)] = true ∧
    label_matches [] [("a", LQVal.single 5)] = some false := by
  exact ⟨rfl, rfl⟩

/-!
## `rec_eval` (base.py lines 967-1117)

The work-queue evaluator.  The memo maps nodes to either a computed value
or the `GarbageCollected` tombstone; the work queue is a list whose head
is the top of Python's `deque` (`append`/`extend` push, `pop` pops the
right end, so `todo.extend(waiting_on)` leaves the *last* element of
`waiting_on` on top).  The loop additionally records the trace of nodes
whose registered implementation is invoked (the call at line 1093) —
ghost state used by the laziness theorems, not affecting the result.
The implementations in scope return plain values, so the
"returns more graph" re-entry (lines 1105-1113) is not exercised; the
loop takes explicit fuel (`outOfFuel` is a modelling artefact — theorems
either quantify over the fuel or exhibit a sufficient one). -/

/-- Memo lookup after inserting a binding for the same key. -/
theorem elook_cons_self {m : EMemo} {k : Nat} {v : MemoVal} :
    elook ((k, v) :: m) k = some v := by
  rw [elook, List.find?_cons]
  simp

/-- Memo lookup after inserting a binding for a different key. -/
theorem elook_cons_ne {m : EMemo} {k x : Nat} {v : MemoVal} (h : k ≠ x) :
    elook ((k, v) :: m) x = elook m x := by
  rw [elook, List.find?_cons]
  have : ((k, v).1 == x) = false := by
    simp [h]
  rw [this]
  rfl

/-- The garbage-collection fold only adds tombstones: any lookup is
either unchanged or `collected`. -/
theorem gcFold_look (f : EMemo → Nat → Bool) :
    ∀ (l : List Nat) (m : EMemo) (x : Nat),
      elook (l.foldl (fun m2 ii =>
        if f m2 ii then einsert m2 ii .collected else m2) m) x = elook m x ∨
      elook (l.foldl (fun m2 ii =>
        if f m2 ii then einsert m2 ii .collected else m2) m) x =
        some .collected := by
  intro l
  induction l with
  | nil => exact fun m x => Or.inl rfl
  | cons ii irest ih =>
    intro m x
    rw [List.foldl_cons]
    by_cases hc : f m ii
    · rw [if_pos hc]
      rcases ih (einsert m ii .collected) x with h | h
      · by_cases hx : ii = x
        · right
          rw [h, hx, einsert]
          exact elook_cons_self
        · left
          rw [h, einsert]
          exact elook_cons_ne hx
      · exact Or.inr h
    · rw [if_neg hc]
      exact ih m x

/-- The memo transformation of one loop iteration: a value is recorded
only through `set_memo` at a node not yet memoized. -/
theorem set_memo_val_cases {a : Arena} {ns : List Nat} {gc : Bool}
    {m : EMemo} {k : Nat} {w : PVal} {x : Nat} {u : PVal}
    (h : elook (set_memo a ns gc m k w) x = some (.val u)) :
    (x = k ∧ u = w) ∨ elook m x = some (.val u) := by
  rw [set_memo] at h
  have heb : elook (einsert m k (.val w)) x = some (.val u) →
      (x = k ∧ u = w) ∨ elook m x = some (.val u) := by
    intro hb
    by_cases hx : k = x
    · rw [← hx] at hb ⊢
      rw [einsert, elook_cons_self] at hb
      injection hb with hb1
      injection hb1 with hb2
      exact Or.inl ⟨rfl, hb2.symm⟩
    · rw [einsert, elook_cons_ne hx] at hb
      exact Or.inr hb
  by_cases hgc : gc
  · rw [if_pos hgc] at h
    rcases gcFold_look _ (inputsOf (getNode a k)) (einsert m k (.val w)) x
      with hc | hc
    · rw [hc] at h
      exact heb h
    · rw [hc] at h
      injection h with h1
      exact MemoVal.noConfusion h1
  · rw [if_neg hgc] at h
    exact heb h

/-- `set_memo` preserves recorded values up to collection. -/
theorem set_memo_mono {a : Arena} {ns : List Nat} {gc : Bool} {m : EMemo}
    {k : Nat} {w : PVal} {x : Nat} {u : PVal} (hk : elook m k = none)
    (hx : elook m x = some (.val u)) :
    elook (set_memo a ns gc m k w) x = some (.val u) ∨
    elook (set_memo a ns gc m k w) x = some .collected := by
  have hkx : k ≠ x := by
    intro hc
    rw [hc, hx] at hk
    exact Option.noConfusion hk
  have heb : elook (einsert m k (.val w)) x = some (.val u) := by
    rw [einsert, elook_cons_ne hkx]
    exact hx
  rw [set_memo]
  by_cases hgc : gc
  · rw [if_pos hgc]
    rcases gcFold_look _ (inputsOf (getNode a k)) (einsert m k (.val w)) x
      with hc | hc
    · rw [hc, heb]
      exact Or.inl rfl
    · exact Or.inr hc
  · rw [if_neg hgc]
    exact Or.inl heb

/-- `set_memo` never resurrects a tombstone. -/
theorem set_memo_collected {a : Arena} {ns : List Nat} {gc : Bool}
    {m : EMemo} {k : Nat} {w : PVal} {x : Nat} (hk : elook m k = none)
    (hx : elook m x = some .collected) :
    elook (set_memo a ns gc m k w) x = some .collected := by
  have hkx : k ≠ x := by
    intro hc
    rw [hc, hx] at hk
    exact Option.noConfusion hk
  have heb : elook (einsert m k (.val w)) x = some .collected := by
    rw [einsert, elook_cons_ne hkx]
    exact hx
  rw [set_memo]
  by_cases hgc : gc
  · rw [if_pos hgc]
    rcases gcFold_look _ (inputsOf (getNode a k)) (einsert m k (.val w)) x
      with hc | hc
    · rw [hc, heb]
    · exact hc
  · rw [if_neg hgc]
    exact heb

/-- A successful run from a non-empty queue decomposes into one `StepRel`
transition followed by a successful run with one unit less fuel. -/
theorem recEvalLoop_step (impls : ImplTable) (a : Arena) (ns : List Nat)
    (gc : Bool) (maxLen : Nat) (top : Nat) {f node : Nat}
    {rest : List Nat} {m : EMemo} {tr : List Nat}
    {out : MemoVal × EMemo × List Nat}
    (h : recEvalLoop impls a ns gc maxLen top (f + 1) (node :: rest) m tr =
      .ok out) :
    ¬ (node :: rest).length > maxLen ∧
    ∃ todo2 m2 tr2, StepRel impls a ns gc node rest m tr todo2 m2 tr2 ∧
      recEvalLoop impls a ns gc maxLen top f todo2 m2 tr2 = .ok out := by
  rw [recEvalLoop] at h
  by_cases hlen : (node :: rest).length > maxLen
  · rw [if_pos hlen] at h
    exact Except.noConfusion h
  · rw [if_neg hlen] at h
    by_cases hmem : (elook m node).isSome
    · rw [if_pos hmem] at h
      exact ⟨hlen, rest, m, tr, Or.inl ⟨hmem, rfl, rfl, rfl⟩, h⟩
    · rw [if_neg hmem] at h
      have hmem0 : elook m node = none := by
        rcases he : elook m node with _ | v
        · rfl
        · rw [he] at hmem
          exact absurd rfl hmem
      by_cases hsw : (getNode a node).name = "switch"
      · rw [if_pos hsw] at h
        rcases hpos : (getNode a node).pos_args with _ | ⟨sv, prest⟩
        · rw [hpos] at h
          exact Except.noConfusion h
        · rw [hpos] at h
          simp only [] at h
          split at h
          · rename_i hsv
            exact ⟨hlen, sv :: node :: rest, m, tr,
              Or.inr (Or.inl ⟨hmem0, hsw, sv, prest, hpos,
                Or.inl ⟨hsv, rfl, rfl, rfl⟩⟩), h⟩
          · exact Except.noConfusion h
          · rename_i sval hsv
            split at h
            · rename_i si
              by_cases hsi : si < 0
              · rw [if_pos hsi] at h
                exact Except.noConfusion h
              · rw [if_neg hsi] at h
                split at h
                · exact Except.noConfusion h
                · rename_i rv hrv
                  split at h
                  · rename_i w hrvm
                    exact ⟨hlen, rest, set_memo a ns gc m node w, tr,
                      Or.inr (Or.inl ⟨hmem0, hsw, sv, prest, hpos,
                        Or.inr ⟨si, rv, hsv, hsi,
                          by rw [hpos]; exact hrv,
                          Or.inr ⟨w, hrvm, rfl, rfl, rfl⟩⟩⟩), h⟩
                  · exact Except.noConfusion h
                  · rename_i hrvm
                    exact ⟨hlen, rv :: node :: rest, m, tr,
                      Or.inr (Or.inl ⟨hmem0, hsw, sv, prest, hpos,
                        Or.inr ⟨si, rv, hsv, hsi,
                          by rw [hpos]; exact hrv,
                          Or.inl ⟨hrvm, rfl, rfl, rfl⟩⟩⟩), h⟩
            · exact Except.noConfusion h
            · exact Except.noConfusion h
            · exact Except.noConfusion h
            · exact Except.noConfusion h
      · rw [if_neg hsw] at h
        by_cases hlit : (getNode a node).isLit
        · rw [if_pos hlit] at h
          exact ⟨hlen, rest, set_memo a ns gc m node (getNode a node).obj, tr,
            Or.inr (Or.inr (Or.inl ⟨hmem0, hsw, hlit, rfl, rfl, rfl⟩)), h⟩
        · rw [if_neg hlit] at h
          split at h
          · rename_i hwait
            split at h
            · exact Except.noConfusion h
            · rename_i argvs kwvs hgather
              split at h
              · exact Except.noConfusion h
              · rename_i rval himpl
                exact ⟨hlen, rest, set_memo a ns gc m node rval, tr ++ [node],
                  Or.inr (Or.inr (Or.inr (Or.inr
                    ⟨hmem0, hsw, Bool.eq_false_iff.mpr hlit, hwait,
                      argvs, kwvs, rval, hgather, himpl, rfl, rfl, rfl⟩))), h⟩
          · rename_i w0 wrest hwait
            exact ⟨hlen, (w0 :: wrest).reverse ++ node :: rest, m, tr,
              Or.inr (Or.inr (Or.inr (Or.inl
                ⟨hmem0, hsw, Bool.eq_false_iff.mpr hlit, w0, wrest, hwait,
                  rfl, rfl, rfl⟩))), h⟩

/-- A `StepRel` transition either keeps the memo or writes one not yet
memoized node through `set_memo`. -/
theorem stepRel_memo {impls : ImplTable} {a : Arena} {ns : List Nat}
    {gc : Bool} {node : Nat}
    {rest : List Nat} {m : EMemo} {tr todo2 : List Nat} {m2 : EMemo}
    {tr2 : List Nat}
    (h : StepRel impls a ns gc node rest m tr todo2 m2 tr2) :
    m2 = m ∨ ∃ w, elook m node = none ∧ m2 = set_memo a ns gc m node w := by
  rcases h with ⟨_, _, hm, _⟩ |
    ⟨hn, _, sv, prest, _, ⟨_, _, hm, _⟩ | ⟨si, rv, _, _, _,
      ⟨_, _, hm, _⟩ | ⟨w, _, _, hm, _⟩⟩⟩ |
    ⟨hn, _, _, _, hm, _⟩ |
    ⟨hn, _, _, w0, wrest, _, _, hm, _⟩ |
    ⟨hn, _, _, _, argvs, kwvs, rval, _, _, _, hm, _⟩
  · exact Or.inl hm
  · exact Or.inl hm
  · exact Or.inl hm
  · exact Or.inr ⟨w, hn, hm⟩
  · exact Or.inr ⟨(getNode a node).obj, hn, hm⟩
  · exact Or.inl hm
  · exact Or.inr ⟨rval, hn, hm⟩

/-- Memo evolution across a successful evaluator run: every value already
recorded survives or is garbage-collected, tombstones are permanent, and
on success the final memo holds the returned value at the top node. -/
theorem recEvalLoop_memo_mono (impls : ImplTable) (a : Arena)
    (ns : List Nat) (gc : Bool) (maxLen top : Nat) :
    ∀ (fuel : Nat) (todo : List Nat) (m : EMemo) (tr : List Nat)
      (out : MemoVal × EMemo × List Nat),
      recEvalLoop impls a ns gc maxLen top fuel todo m tr = .ok out →
      (∀ k u, elook m k = some (.val u) →
        elook out.2.1 k = some (.val u) ∨
        elook out.2.1 k = some .collected) ∧
      (∀ k, elook m k = some .collected →
        elook out.2.1 k = some .collected) ∧
      elook out.2.1 top = some out.1 := by
  intro fuel
  induction fuel with
  | zero =>
    intro todo m tr out h
    exact Except.noConfusion h
  | succ f ih =>
    intro todo m tr out h
    cases todo with
    | nil =>
      rw [recEvalLoop] at h
      split at h
      · rename_i v hv
        injection h with h1
        refine ⟨fun k u hk => ?_, fun k hk => ?_, ?_⟩
        · rw [← h1]
          exact Or.inl hk
        · rw [← h1]
          exact hk
        · rw [← h1]
          exact hv
      · exact Except.noConfusion h
    | cons node rest =>
      obtain ⟨hlen0, todo2, m2, tr2, hstep, hrun⟩ :=
        recEvalLoop_step impls a ns gc maxLen top h
      obtain ⟨ih1, ih2, ih3⟩ := ih todo2 m2 tr2 out hrun
      rcases stepRel_memo hstep with hm | ⟨w, hn, hm⟩
      · subst hm
        exact ⟨ih1, ih2, ih3⟩
      · subst hm
        refine ⟨?_, ?_, ih3⟩
        · intro k u hk
          rcases set_memo_mono hn hk with hc | hc
          · exact ih1 k u hc
          · exact Or.inr (ih2 k hc)
        · intro k hk
          exact ih2 k (set_memo_collected hn hk)

/-- Run invariant for a `switch` root whose final memo pins the selector
to `i`: the trace stays inside the subgraphs of the selector and of the
selected branch, and the root's recorded value is copied from that
branch. -/
theorem switch_run_confined (impls : ImplTable) (a : Arena) (ns : List Nat)
    (gc : Bool) (maxLen : Nat) (root s b : Nat) (branches : List Nat)
    (i : Nat) (out : MemoVal × EMemo × List Nat)
    (hname : (getNode a root).name = "switch")
    (hpos : (getNode a root).pos_args = s :: branches)
    (hb : branches.get? i = some b)
    (hsel : elook out.2.1 s = some (.val (PVal.int (Int.ofNat i)))) :
    ∀ (fuel : Nat) (todo : List Nat) (m : EMemo) (tr : List Nat),
      recEvalLoop impls a ns gc maxLen root fuel todo m tr = .ok out →
      (∀ x ∈ todo, x = root ∨ x ∈ dfs a s ∨ x ∈ dfs a b) →
      (∀ x ∈ tr, x ∈ dfs a s ∨ x ∈ dfs a b) →
      (∀ w, elook m root = some (.val w) →
        elook m b = some (.val w) ∨ elook m b = some .collected) →
      (∀ x ∈ out.2.2, x ∈ dfs a s ∨ x ∈ dfs a b) ∧
      (∀ w, elook out.2.1 root = some (.val w) →
        elook out.2.1 b = some (.val w) ∨
        elook out.2.1 b = some .collected) := by
  intro fuel
  induction fuel with
  | zero =>
    intro todo m tr hrun _ _ _
    exact Except.noConfusion hrun
  | succ f ih =>
    intro todo m tr hrun htodo htr hrok
    cases todo with
    | nil =>
      rw [recEvalLoop] at hrun
      split at hrun
      · rename_i v hv
        injection hrun with h1
        rw [← h1]
        exact ⟨htr, hrok⟩
      · exact Except.noConfusion hrun
    | cons node rest =>
      obtain ⟨hlen0, todo2, m2, tr2, hstep, hrun2⟩ :=
        recEvalLoop_step impls a ns gc maxLen root hrun
      have hnode := htodo node (List.mem_cons_self node rest)
      have htodo' : ∀ x ∈ rest, x = root ∨ x ∈ dfs a s ∨ x ∈ dfs a b :=
        fun x hx => htodo x (List.mem_cons_of_mem node hx)
      have hmem_in : ∀ y, y ∈ inputsOf (getNode a node) →
          node ∈ dfs a s ∨ node ∈ dfs a b →
          y ∈ dfs a s ∨ y ∈ dfs a b := by
        intro y hy hnn
        rcases hnn with hnn | hnn
        · exact Or.inl ((dfs_props a s).2.2.1 node hnn y hy)
        · exact Or.inr ((dfs_props a b).2.2.1 node hnn y hy)
      rcases hstep with ⟨hms, ht2, hm2, htr2⟩ |
        ⟨hn, hsw, sv, prest, hposn, hcase⟩ |
        ⟨hn, hsw, hlit, ht2, hm2, htr2⟩ |
        ⟨hn, hsw, hlit, w0, wrest, hwait, ht2, hm2, htr2⟩ |
        ⟨hn, hsw, hlit, hwait, argvs, kwvs, rval, hgather,
          himpl, ht2, hm2, htr2⟩
      · rw [ht2, hm2, htr2] at hrun2
        exact ih rest m tr hrun2 htodo' htr hrok
      · rcases hcase with ⟨hsv, ht2, hm2, htr2⟩ |
          ⟨si, rv, hsvv, hsi, hget, hsub⟩
        · rw [ht2, hm2, htr2] at hrun2
          have hsvmem : sv = root ∨ sv ∈ dfs a s ∨ sv ∈ dfs a b := by
            rcases hnode with hr | hnn
            · right
              left
              rw [hr, hpos] at hposn
              injection hposn with h1 h2
              rw [← h1]
              exact (dfs_props a s).2.1
            · right
              refine hmem_in sv ?_ hnn
              rw [inputsOf, hposn]
              exact List.mem_append_left _ (List.mem_cons_self sv prest)
          refine ih (sv :: node :: rest) m tr hrun2 ?_ htr hrok
          intro x hx
          rcases List.mem_cons.mp hx with rfl | hx2
          · exact hsvmem
          · rcases List.mem_cons.mp hx2 with rfl | hx3
            · exact hnode
            · exact htodo' x hx3
        · rcases hsub with ⟨hrv, ht2, hm2, htr2⟩ |
            ⟨w, hrvv, ht2, hm2, htr2⟩
          · rw [ht2, hm2, htr2] at hrun2
            have hrvmem : rv = root ∨ rv ∈ dfs a s ∨ rv ∈ dfs a b := by
              rcases hnode with hr | hnn
              · right
                right
                rw [hr] at hposn hget
                have hps := hposn
                rw [hpos] at hps
                injection hps with h1 h2
                have hmono := recEvalLoop_memo_mono impls a ns gc maxLen
                  root f (rv :: node :: rest) m tr out hrun2
                have hsvs : elook m s = some (.val (PVal.int si)) := by
                  rw [h1]
                  exact hsvv
                rcases hmono.1 s (PVal.int si) hsvs with hs1 | hs1
                · rw [hsel] at hs1
                  injection hs1 with hs2
                  injection hs2 with hs3
                  injection hs3 with hs4
                  rw [hpos, ← hs4] at hget
                  have hti : (Int.ofNat i).toNat = i := rfl
                  rw [hti, List.get?_cons_succ, hb] at hget
                  injection hget with h5
                  rw [← h5]
                  exact (dfs_props a b).2.1
                · rw [hsel] at hs1
                  injection hs1 with hx
                  exact MemoVal.noConfusion hx
              · right
                refine hmem_in rv ?_ hnn
                rw [inputsOf]
                exact List.mem_append_left _ (List.get?_mem hget)
            refine ih (rv :: node :: rest) m tr hrun2 ?_ htr hrok
            intro x hx
            rcases List.mem_cons.mp hx with rfl | hx2
            · exact hrvmem
            · rcases List.mem_cons.mp hx2 with rfl | hx3
              · exact hnode
              · exact htodo' x hx3
          · rw [ht2, hm2, htr2] at hrun2
            by_cases hre : node = root
            · rw [hre] at hposn hget hn hrun2
              have hps := hposn
              rw [hpos] at hps
              injection hps with h1 h2
              have hsvs : elook m s = some (.val (PVal.int si)) := by
                rw [h1]
                exact hsvv
              have hmono := recEvalLoop_memo_mono impls a ns gc maxLen
                root f rest (set_memo a ns gc m root w) tr out hrun2
              rcases set_memo_mono (x := s) (w := w) hn hsvs with hsv2 | hsv2
              · rcases hmono.1 s (PVal.int si) hsv2 with hs1 | hs1
                · rw [hsel] at hs1
                  injection hs1 with hs2
                  injection hs2 with hs3
                  injection hs3 with hs4
                  rw [hpos, ← hs4] at hget
                  have hti : (Int.ofNat i).toNat = i := rfl
                  rw [hti, List.get?_cons_succ, hb] at hget
                  injection hget with h5
                  refine ih rest (set_memo a ns gc m root w) tr hrun2
                    htodo' htr ?_
                  intro u hu
                  rcases set_memo_val_cases hu with ⟨-, hu2⟩ | hu3
                  · rw [hu2]
                    have hbv : elook m b = some (.val w) := by
                      rw [h5]
                      exact hrvv
                    exact set_memo_mono hn hbv
                  · rw [hn] at hu3
                    exact Option.noConfusion hu3
                · rw [hsel] at hs1
                  injection hs1 with hx
                  exact MemoVal.noConfusion hx
              · have hs2 := hmono.2.1 s hsv2
                rw [hsel] at hs2
                injection hs2 with hx
                exact MemoVal.noConfusion hx
            · refine ih rest (set_memo a ns gc m node w) tr hrun2
                htodo' htr ?_
              intro u hu
              rcases set_memo_val_cases hu with ⟨he, -⟩ | hu3
              · exact absurd he.symm hre
              · rcases hrok u hu3 with hbv | hbv
                · exact set_memo_mono hn hbv
                · exact Or.inr (set_memo_collected hn hbv)
      · rw [ht2, hm2, htr2] at hrun2
        have hre : ¬ node = root := fun hc => hsw (by rw [hc]; exact hname)
        refine ih rest (set_memo a ns gc m node (getNode a node).obj) tr
          hrun2 htodo' htr ?_
        intro u hu
        rcases set_memo_val_cases hu with ⟨he, -⟩ | hu3
        · exact absurd he.symm hre
        · rcases hrok u hu3 with hbv | hbv
          · exact set_memo_mono hn hbv
          · exact Or.inr (set_memo_collected hn hbv)
      · rw [ht2, hm2, htr2] at hrun2
        have hre : ¬ node = root := fun hc => hsw (by rw [hc]; exact hname)
        have hndfs : node ∈ dfs a s ∨ node ∈ dfs a b := by
          rcases hnode with hr | hnn
          · exact absurd hr hre
          · exact hnn
        refine ih ((w0 :: wrest).reverse ++ node :: rest) m tr hrun2 ?_
          htr hrok
        intro x hx
        rcases List.mem_append.mp hx with hx1 | hx1
        · rw [List.mem_reverse] at hx1
          have hxin : x ∈ inputsOf (getNode a node) := by
            have hxf : x ∈ (inputsOf (getNode a node)).filter
                (fun v => (elook m v).isNone) := by
              rw [hwait]
              exact hx1
            exact List.mem_of_mem_filter hxf
          exact Or.inr (hmem_in x hxin hndfs)
        · rcases List.mem_cons.mp hx1 with rfl | hx2
          · exact hnode
          · exact htodo' x hx2
      · rw [ht2, hm2, htr2] at hrun2
        have hre : ¬ node = root := fun hc => hsw (by rw [hc]; exact hname)
        have hndfs : node ∈ dfs a s ∨ node ∈ dfs a b := by
          rcases hnode with hr | hnn
          · exact absurd hr hre
          · exact hnn
        refine ih rest (set_memo a ns gc m node rval) (tr ++ [node]) hrun2
          htodo' ?_ ?_
        · intro x hx
          rcases List.mem_append.mp hx with hx1 | hx1
          · exact htr x hx1
          · rw [List.mem_singleton] at hx1
            rw [hx1]
            exact hndfs
        · intro u hu
          rcases set_memo_val_cases hu with ⟨he, -⟩ | hu3
          · exact absurd he.symm hre
          · rcases hrok u hu3 with hbv | hbv
            · exact set_memo_mono hn hbv
            · exact Or.inr (set_memo_collected hn hbv)

/-- C1: for every graph whose root is a conditional-branch (`switch`)
node and whose memoized selector value is the non-negative integer `i`,
a successful `rec_eval` confines its invocation trace to the subgraphs
of the selector and of the selected branch — the `(i+1)`-th positional
input — so the implementation of a sibling branch (even one that would
raise) is never invoked, and the returned value is the value recorded
for the selected branch (up to garbage collection of that entry). -/
theorem claim_C1_switch_laziness (impls : ImplTable) (a : Arena)
    (gc : Bool) (mpl : Option Nat) (fuel root s b i : Nat)
    (branches : List Nat) (m0 : EMemo) (v : MemoVal) (mF : EMemo)
    (trF : List Nat)
    (hname : (getNode a root).name = "switch")
    (hpos : (getNode a root).pos_args = s :: branches)
    (hb : branches.get? i = some b)
    (hm0 : elook m0 root = none)
    (hrun : rec_eval impls a root (some m0) mpl gc fuel =
      .ok (v, mF, trF))
    (hsel : elook mF s = some (.val (PVal.int (Int.ofNat i)))) :
    (∀ x ∈ trF, x ∈ dfs a s ∨ x ∈ dfs a b) ∧
    ∀ w, v = .val w →
      elook mF b = some (.val w) ∨ elook mF b = some .collected := by
  have hex : ∃ maxLen, recEvalLoop impls a (dfs a root) gc maxLen root
      fuel [root] m0 [] = .ok (v, mF, trF) := by
    cases mpl with
    | none => exact ⟨DEFAULT_MAX_PROGRAM_LEN, hrun⟩
    | some u => exact ⟨u, hrun⟩
  obtain ⟨maxLen, hloop⟩ := hex
  obtain ⟨hconf, hrok⟩ := switch_run_confined impls a (dfs a root) gc
    maxLen root s b branches i (v, mF, trF) hname hpos hb hsel fuel
    [root] m0 []
    hloop
    (by
      intro x hx
      rw [List.mem_singleton] at hx
      exact Or.inl hx)
    (by
      intro x hx
      exact absurd hx (List.not_mem_nil x))
    (by
      intro w hw
      rw [hm0] at hw
      exact Option.noConfusion hw)
  refine ⟨hconf, ?_⟩
  intro w hw
  have hmono := recEvalLoop_memo_mono impls a (dfs a root) gc maxLen root
    fuel [root] m0 [] (v, mF, trF) hloop
  have htop : elook mF root = some v := hmono.2.2
  exact hrok w (by rw [htop, hw])

/-- Witness for C1 on `swArena`: `switch(0, identity(42), Raise)` returns
42, the trace `[2]` stays inside the selector/selected-branch subgraphs
(the Raise node 3 is never invoked), and the branch's memo entry holds
the returned value. -/
theorem claim_C1_switch_laziness_witness :
    (∀ x ∈ [2], x ∈ dfs swArena 0 ∨ x ∈ dfs swArena 2) ∧
    ∀ w, MemoVal.val (PVal.int 42) = .val w →
      elook [(4, MemoVal.val (PVal.int 42)),
        (2, MemoVal.val (PVal.int 42)), (1, MemoVal.val (PVal.int 42)),
        (0, MemoVal.val (PVal.int 0))] 2 = some (.val w) ∨
      elook [(4, MemoVal.val (PVal.int 42)),
        (2, MemoVal.val (PVal.int 42)), (1, MemoVal.val (PVal.int 42)),
        (0, MemoVal.val (PVal.int 0))] 2 = some .collected :=
  claim_C1_switch_laziness implsBase swArena false none 30 4 0 2 0 [2, 3]
    [] (MemoVal.val (PVal.int 42))
    [(4, MemoVal.val (PVal.int 42)), (2, MemoVal.val (PVal.int 42)),
      (1, MemoVal.val (PVal.int 42)), (0, MemoVal.val (PVal.int 0))] [2]
    rfl rfl rfl rfl (by decide) rfl

/-- C6: on every iteration of the evaluator loop with outstanding work,
if the work queue is longer than the configured ceiling the evaluator
fails with the runaway-graph error (base.py lines 1030-1033), the
default ceiling is `DEFAULT_MAX_PROGRAM_LEN = 100000` (base.py line 21),
and calling `rec_eval` without a ceiling behaves exactly as calling it
with the default. -/
theorem claim_C6_runaway_ceiling :
    (∀ (impls : ImplTable) (a : Arena) (ns : List Nat) (gc : Bool)
      (maxLen top fuel node : Nat) (rest : List Nat) (m : EMemo)
      (tr : List Nat),
      (node :: rest).length > maxLen →
      recEvalLoop impls a ns gc maxLen top (fuel + 1) (node :: rest) m
        tr = .error .runawayGraph) ∧
    DEFAULT_MAX_PROGRAM_LEN = 100000 ∧
    ∀ (impls : ImplTable) (a : Arena) (root : Nat) (memo : Option EMemo)
      (gc : Bool) (fuel : Nat),
      rec_eval impls a root memo none gc fuel =
        rec_eval impls a root memo (some DEFAULT_MAX_PROGRAM_LEN) gc
          fuel := by
  refine ⟨?_, rfl, ?_⟩
  · intro impls a ns gc maxLen top fuel node rest m tr hlen
    rw [recEvalLoop, if_pos hlen]
  · intro impls a root memo gc fuel
    rfl

/-- Witness for C6: with ceiling 0, one loop iteration on a singleton
queue fails with the runaway-graph error. -/
theorem claim_C6_runaway_ceiling_witness :
    ([0] : List Nat).length > 0 ∧
    recEvalLoop implsBase swArena [] false 0 4 1 [0] [] [] =
      .error .runawayGraph :=
  ⟨by decide, claim_C6_runaway_ceiling.1 implsBase swArena [] false 0 4 0
    0 [] [] [] (by decide)⟩

/-- C9: `rec_eval` called with a caller-supplied memo works on a copy:
the caller's heap cells are all left unchanged — the final memo is a
fresh cell appended to the heap — whether evaluation succeeds or
fails. -/
theorem claim_C9_caller_memo_frame (impls : ImplTable) (a : Arena)
    (expr : Nat) (heap : List EMemo) (memoIdx : Nat) (mpl : Option Nat)
    (gc : Bool) (fuel : Nat) :
    (∃ c, (rec_eval_with_heap impls a expr heap memoIdx mpl gc
      fuel).2 = heap ++ [c]) ∧
    ∀ j, j < heap.length →
      (rec_eval_with_heap impls a expr heap memoIdx mpl gc fuel).2.getD
        j [] = heap.getD j [] := by
  have hsplit : ∃ c, (rec_eval_with_heap impls a expr heap memoIdx mpl
      gc fuel).2 = heap ++ [c] := by
    rw [rec_eval_with_heap]
    split
    · rename_i v mfinal tr heq
      exact ⟨mfinal, rfl⟩
    · exact ⟨[], rfl⟩
  obtain ⟨c, hc⟩ := hsplit
  refine ⟨⟨c, hc⟩, ?_⟩
  intro j hj
  rw [hc]
  exact List.getD_append _ _ _ _ hj

/-- Witness for C9: evaluating the switch graph with a caller heap of
one memo cell leaves that cell untouched. -/
theorem claim_C9_caller_memo_frame_witness :
    (0 : Nat) < ([[(9, MemoVal.val (PVal.int 5))]] : List EMemo).length ∧
    (rec_eval_with_heap implsBase swArena 4
      [[(9, MemoVal.val (PVal.int 5))]] 0 none false 30).2.getD 0 [] =
      ([[(9, MemoVal.val (PVal.int 5))]] : List EMemo).getD 0 [] :=
  ⟨by decide,
    (claim_C9_caller_memo_frame implsBase swArena 4
      [[(9, MemoVal.val (PVal.int 5))]] 0 none false 30).2 0 (by decide)⟩

/-- Witness for the amended C8 characterization on a node with no labels
and a two-key query: only the first key is examined, the match fails
because the key is absent, and the empty query gives `None`. -/
theorem claim_C8_label_matches_amended_witness :
    ((label_matches [] [("a", LQVal.single 5)] = some true ↔
      ∃ lv, lfindNat "a" [] = some lv ∧
        lqTest lv (LQVal.single 5) = true) ∧
    label_matches [] [("a", LQVal.single 5), ("b", LQVal.single 7)] =
      label_matches [] [("a", LQVal.single 5)] ∧
    label_matches ([] : List (String × Nat)) [] = none) ∧
    label_matches [] [("a", LQVal.single 5)] = some false := by
  obtain ⟨h1, h2, h3, h4⟩ := claim_C8_label_matches_amended [] "a"
    (LQVal.single 5) [("b", LQVal.single 7)]
  exact ⟨⟨h1, h2, h4⟩, h3 rfl⟩

/-- The rewrite loop ends with an assigned generator-state node exactly
when it started with one or some traversed node is implicit
stochastic. -/
theorem risFold_found : ∀ (l : List Nat) (ar : Arena) (lrng expr : Nat)
    (found : Option Nat),
    (risFold ar lrng expr found l).2.2.2.isSome = true ↔
    (found.isSome = true ∨ ∃ oi ∈ l,
      (getNode ar oi).name ∈ implicit_stochastic_symbols) := by
  intro l
  induction l with
  | nil =>
    intro ar lrng expr found
    rw [risFold]
    constructor
    · exact fun h => Or.inl h
    · rintro (h | ⟨oi, hoi, -⟩)
      · exact h
      · exact absurd hoi (List.not_mem_nil oi)
  | cons oi rest ih =>
    intro ar lrng expr found
    simp only [risFold]
    by_cases hst : (getNode ar oi).name ∈ implicit_stochastic_symbols
    · rw [if_pos hst, ih]
      constructor
      · intro _
        exact Or.inr ⟨oi, List.mem_cons_self oi rest, hst⟩
      · intro _
        exact Or.inl rfl
    · rw [if_neg hst, ih]
      constructor
      · rintro (h | ⟨oj, hoj, hj⟩)
        · exact Or.inl h
        · exact Or.inr ⟨oj, List.mem_cons_of_mem oi hoj, hj⟩
      · rintro (h | ⟨oj, hoj, hj⟩)
        · exact Or.inl h
        · rcases List.mem_cons.mp hoj with rfl | hoj2
          · exact absurd hj hst
          · exact Or.inr ⟨oj, hoj2, hj⟩

/-- The final pattern match of the rewriter succeeds exactly when the
generator-state slot is assigned. -/
theorem risWrap_ok (q : Arena × Nat × Nat × Option Nat) :
    (∃ out : (Arena × Nat) × Nat, (match q with
      | (ar2, _, expr2, some nl) =>
        (Except.ok ((ar2, expr2), nl) :
          Except String ((Arena × Nat) × Nat))
      | (_, _, _, none) => Except.error "NameError: new_lrng") =
        .ok out) ↔ q.2.2.2.isSome = true := by
  obtain ⟨ar, l2, e2, fnd⟩ := q
  cases fnd with
  | none =>
    constructor
    · rintro ⟨out, hout⟩
      exact Except.noConfusion hout
    · intro h
      exact Bool.noConfusion h
  | some nl =>
    constructor
    · intro _
      rfl
    · intro _
      exact ⟨((ar, e2), nl), rfl⟩

/-- C10: `replace_implicit_stochastic_nodes(expr, rng)` returns a
(rewritten root, final generator-state node) pair exactly when some
node reachable from `expr` is an implicit-stochastic operation; with no
such node the final `return expr, new_lrng` reads the never-assigned
variable `new_lrng` and the call fails with an unbound-name error
instead of returning. -/
theorem claim_C10_stochastic_rewrite_reachability (a : Arena)
    (expr : Nat) (rng : PVal) :
    (∃ out, replace_implicit_stochastic_nodes a expr rng = .ok out) ↔
    ∃ n ∈ dfs (a ++ [mkLiteral rng]) expr,
      (getNode (a ++ [mkLiteral rng]) n).name ∈
        implicit_stochastic_symbols := by
  have hw := risWrap_ok (risFold (a ++ [mkLiteral rng]) (asize a) expr
    none (dfs (a ++ [mkLiteral rng]) expr))
  have hf := risFold_found (dfs (a ++ [mkLiteral rng]) expr)
    (a ++ [mkLiteral rng]) (asize a) expr none
  have hf2 : (risFold (a ++ [mkLiteral rng]) (asize a) expr none
      (dfs (a ++ [mkLiteral rng]) expr)).2.2.2.isSome = true ↔
      ∃ n ∈ dfs (a ++ [mkLiteral rng]) expr,
        (getNode (a ++ [mkLiteral rng]) n).name ∈
          implicit_stochastic_symbols := by
    rw [hf]
    constructor
    · rintro (h | h)
      · exact absurd h (by decide)
      · exact h
    · exact fun h => Or.inr h
  exact hw.trans hf2

/-- Converse of `recEvalLoop_step`: a `StepRel` transition determines
one unfolding of the loop at any fuel. -/
theorem recEvalLoop_step_back (impls : ImplTable) (a : Arena)
    (ns : List Nat) (gc : Bool) (maxLen top : Nat) {node : Nat}
    {rest : List Nat} {m : EMemo} {tr todo2 : List Nat} {m2 : EMemo}
    {tr2 : List Nat} (f : Nat)
    (hlen : ¬ (node :: rest).length > maxLen)
    (hstep : StepRel impls a ns gc node rest m tr todo2 m2 tr2) :
    recEvalLoop impls a ns gc maxLen top (f + 1) (node :: rest) m tr =
      recEvalLoop impls a ns gc maxLen top f todo2 m2 tr2 := by
  rw [recEvalLoop, if_neg hlen]
  rcases hstep with ⟨hms, ht2, hm2, htr2⟩ |
    ⟨hn, hsw, sv, prest, hposn, hcase⟩ |
    ⟨hn, hsw, hlit, ht2, hm2, htr2⟩ |
    ⟨hn, hsw, hlit, w0, wrest, hwait, ht2, hm2, htr2⟩ |
    ⟨hn, hsw, hlit, hwait, argvs, kwvs, rval, hgather, himpl, ht2, hm2,
      htr2⟩
  · rw [ht2, hm2, htr2]
    obtain ⟨v, hv⟩ := Option.isSome_iff_exists.mp hms
    rw [hv]
    rfl
  · rw [hn, if_pos hsw, hposn]
    simp only []
    rcases hcase with ⟨hsv, ht2, hm2, htr2⟩ |
      ⟨si, rv, hsvv, hsi, hget, hsub⟩
    · rw [hsv, ht2, hm2, htr2]
      rfl
    · rw [hposn] at hget
      rw [hsvv]
      simp only []
      rw [if_neg hsi, hget]
      simp only []
      rcases hsub with ⟨hrv, ht2, hm2, htr2⟩ | ⟨w, hrvv, ht2, hm2, htr2⟩
      · rw [hrv, ht2, hm2, htr2]
        rfl
      · rw [hrvv, ht2, hm2, htr2]
        rfl
  · rw [hn, if_neg hsw, if_pos hlit, ht2, hm2, htr2]
    rfl
  · have hlit2 : ¬ (getNode a node).isLit = true := by
      rw [hlit]
      decide
    rw [hn, if_neg hsw, if_neg hlit2, hwait, ht2, hm2, htr2]
    rfl
  · have hlit2 : ¬ (getNode a node).isLit = true := by
      rw [hlit]
      decide
    rw [hn, if_neg hsw, if_neg hlit2, hwait, hgather]
    simp only []
    rw [himpl, ht2, hm2, htr2]
    rfl

/-- One unit of extra fuel preserves a successful evaluator run. -/
theorem recEvalLoop_fuel_succ (impls : ImplTable) (a : Arena)
    (ns : List Nat) (gc : Bool) (maxLen top : Nat) :
    ∀ (f : Nat) (todo : List Nat) (m : EMemo) (tr : List Nat)
      (out : MemoVal × EMemo × List Nat),
      recEvalLoop impls a ns gc maxLen top f todo m tr = .ok out →
      recEvalLoop impls a ns gc maxLen top (f + 1) todo m tr =
        .ok out := by
  intro f
  induction f with
  | zero =>
    intro todo m tr out h
    exact Except.noConfusion h
  | succ g ih =>
    intro todo m tr out h
    cases todo with
    | nil => exact h
    | cons node rest =>
      obtain ⟨hlen0, todo2, m2, tr2, hstep, hrun2⟩ :=
        recEvalLoop_step impls a ns gc maxLen top h
      rw [recEvalLoop_step_back impls a ns gc maxLen top (g + 1) hlen0
        hstep]
      exact ih todo2 m2 tr2 out hrun2

/-- Any amount of extra fuel preserves a successful evaluator run. -/
theorem recEvalLoop_fuel_le (impls : ImplTable) (a : Arena)
    (ns : List Nat) (gc : Bool) (maxLen top : Nat) {f f2 : Nat}
    (hle : f ≤ f2) {todo : List Nat} {m : EMemo} {tr : List Nat}
    {out : MemoVal × EMemo × List Nat}
    (h : recEvalLoop impls a ns gc maxLen top f todo m tr = .ok out) :
    recEvalLoop impls a ns gc maxLen top f2 todo m tr = .ok out := by
  induction hle with
  | refl => exact h
  | step _ ih =>
    exact recEvalLoop_fuel_succ impls a ns gc maxLen top _ todo m tr
      out ih

/-- The evaluator's result does not depend on the fuel parameter: any
two successful runs agree. -/
theorem recEvalLoop_det (impls : ImplTable) (a : Arena) (ns : List Nat)
    (gc : Bool) (maxLen top : Nat) {f1 f2 : Nat} {todo : List Nat}
    {m : EMemo} {tr : List Nat} {out1 out2 : MemoVal × EMemo × List Nat}
    (h1 : recEvalLoop impls a ns gc maxLen top f1 todo m tr = .ok out1)
    (h2 : recEvalLoop impls a ns gc maxLen top f2 todo m tr = .ok out2) :
    out1 = out2 := by
  rcases Nat.le_total f1 f2 with hle | hle
  · have h1b := recEvalLoop_fuel_le impls a ns gc maxLen top hle h1
    rw [h1b] at h2
    injection h2 with h3
  · have h2b := recEvalLoop_fuel_le impls a ns gc maxLen top hle h2
    rw [h2b] at h1
    injection h1 with h3
    exact h3.symm

/-- C7: rewriting with the stochastic rewriter and then evaluating is a
deterministic function of the seed: the rewriter returns a unique
rewritten graph for a given seed, and any two successful evaluations of
it (with any fuel bounds, which model Python's unbounded loop) return
identical results — in particular identical sequences of drawn values
at every selection of draw nodes. -/
theorem claim_C7_deterministic_draws (a : Arena) (expr seed : Nat)
    (arE : Arena) (e2 nl : Nat) (gc : Bool) (mpl : Option Nat)
    (memo : Option EMemo)
    (hrw : replace_implicit_stochastic_nodes a expr
      (rng_from_seed seed) = .ok ((arE, e2), nl))
    (f1 f2 : Nat) (out1 out2 : MemoVal × EMemo × List Nat)
    (h1 : rec_eval implsBase arE e2 memo mpl gc f1 = .ok out1)
    (h2 : rec_eval implsBase arE e2 memo mpl gc f2 = .ok out2) :
    (∀ arE2 e22 nl2,
      replace_implicit_stochastic_nodes a expr (rng_from_seed seed) =
        .ok ((arE2, e22), nl2) → arE2 = arE ∧ e22 = e2 ∧ nl2 = nl) ∧
    out1 = out2 ∧
    ∀ chain : List Nat,
      chain.map (fun k => elook out1.2.1 k) =
        chain.map (fun k => elook out2.2.1 k) := by
  have hdet : out1 = out2 := by
    cases memo with
    | none =>
      cases mpl with
      | none =>
        have h1b : recEvalLoop implsBase arE (dfs arE e2) gc
            DEFAULT_MAX_PROGRAM_LEN e2 f1 [e2] [] [] = .ok out1 := h1
        have h2b : recEvalLoop implsBase arE (dfs arE e2) gc
            DEFAULT_MAX_PROGRAM_LEN e2 f2 [e2] [] [] = .ok out2 := h2
        exact recEvalLoop_det implsBase arE (dfs arE e2) gc
          DEFAULT_MAX_PROGRAM_LEN e2 h1b h2b
      | some u =>
        have h1b : recEvalLoop implsBase arE (dfs arE e2) gc u e2 f1
            [e2] [] [] = .ok out1 := h1
        have h2b : recEvalLoop implsBase arE (dfs arE e2) gc u e2 f2
            [e2] [] [] = .ok out2 := h2
        exact recEvalLoop_det implsBase arE (dfs arE e2) gc u e2 h1b h2b
    | some m0 =>
      cases mpl with
      | none =>
        have h1b : recEvalLoop implsBase arE (dfs arE e2) gc
            DEFAULT_MAX_PROGRAM_LEN e2 f1 [e2] m0 [] = .ok out1 := h1
        have h2b : recEvalLoop implsBase arE (dfs arE e2) gc
            DEFAULT_MAX_PROGRAM_LEN e2 f2 [e2] m0 [] = .ok out2 := h2
        exact recEvalLoop_det implsBase arE (dfs arE e2) gc
          DEFAULT_MAX_PROGRAM_LEN e2 h1b h2b
      | some u =>
        have h1b : recEvalLoop implsBase arE (dfs arE e2) gc u e2 f1
            [e2] m0 [] = .ok out1 := h1
        have h2b : recEvalLoop implsBase arE (dfs arE e2) gc u e2 f2
            [e2] m0 [] = .ok out2 := h2
        exact recEvalLoop_det implsBase arE (dfs arE e2) gc u e2 h1b h2b
  refine ⟨?_, hdet, fun chain => by rw [hdet]⟩
  intro arE2 e22 nl2 hrw2
  rw [hrw] at hrw2
  injection hrw2 with hp
  injection hp with hp1 hp2
  injection hp1 with hp3 hp4
  exact ⟨hp3.symm, hp4.symm, hp2.symm⟩

/-- Witness for C7 on the one-uniform graph under seed 7, evaluated with
two different fuel bounds: the rewrite is unique and both evaluations
return the same draws. -/
theorem claim_C7_deterministic_draws_witness :
    ((∀ arE2 e22 nl2,
      replace_implicit_stochastic_nodes c7Arena 0 (rng_from_seed 7) =
        .ok ((arE2, e22), nl2) →
        arE2 = c7ArenaRw ∧ e22 = 5 ∧ nl2 = 7) ∧
    c7Out = c7Out ∧
    ∀ chain : List Nat,
      chain.map (fun k => elook c7Out.2.1 k) =
        chain.map (fun k => elook c7Out.2.1 k)) :=
  claim_C7_deterministic_draws c7Arena 0 7 c7ArenaRw 5 7 false none
    (some []) rfl 20 25 c7Out c7Out rfl rfl
